import Mathlib

/-!
Verification of the narration-synthesis pipeline of `aiuto_trend_producer`
(`modules/tts_narrator.py`, with the `modules/chatterbox_narrator.py` text
cleaner as a variant).  Strings are modelled as `List Char`; every Python
regex substitution used by the pipeline is embedded as a dedicated scanner.
External libraries (pydub, scipy, the TTS engine, num2words) are modelled as
oracles or, where their output shape matters, as explicit functions.
-/

set_option linter.unusedVariables false

namespace TTSNarr

/-- Python regex `\s` / `str.strip` whitespace, restricted to BMP characters. -/
def isWS (c : Char) : Bool :=
  c = ' ' || c = '\t' || c = '\n' || c = '\r' || c = '\x0b' || c = '\x0c' ||
  c = '\x1c' || c = '\x1d' || c = '\x1e' || c = '\x1f' ||
  c = Char.ofNat 0x85 || c = Char.ofNat 0xa0 || c = Char.ofNat 0x1680 ||
  (0x2000 ≤ c.toNat && c.toNat ≤ 0x200a) ||
  c = Char.ofNat 0x2028 || c = Char.ofNat 0x2029 ||
  c = Char.ofNat 0x202f || c = Char.ofNat 0x205f || c = Char.ofNat 0x3000

/-- Python `str.lstrip()`. -/
def lstripWS (l : List Char) : List Char := l.dropWhile isWS

/-- Python `str.rstrip()`. -/
def rstripWS (l : List Char) : List Char := (l.reverse.dropWhile isWS).reverse

/-- Python `str.strip()`. -/
def stripWS (l : List Char) : List Char := rstripWS (lstripWS l)

/-- One pass of `re.sub(r'\s+', ' ', ·)`: every maximal whitespace run becomes
a single space.  `prevWS` records whether the previous character was
whitespace. -/
def collapseGo (prevWS : Bool) : List Char → List Char
  | [] => []
  | c :: resto =>
    if isWS c then
      if prevWS then collapseGo true resto else ' ' :: collapseGo true resto
    else c :: collapseGo false resto

/-- `re.sub(r'\s+', ' ', ·)`. -/
def collapseWS (l : List Char) : List Char := collapseGo false l

/-- Maximal non-whitespace runs of a string, used to state "equal modulo
whitespace normalization".  `atual` accumulates the current word reversed. -/
def wordsAux (atual : List Char) : List Char → List (List Char)
  | [] => if atual = [] then [] else [atual.reverse]
  | c :: resto =>
    if isWS c then
      if atual = [] then wordsAux [] resto else atual.reverse :: wordsAux [] resto
    else wordsAux (c :: atual) resto

/-- The words (maximal non-whitespace runs) of a string. -/
def palavras (l : List Char) : List (List Char) := wordsAux [] l

/-- Join chunks with single spaces. -/
def joinSpace : List (List Char) → List Char
  | [] => []
  | [w] => w
  | w :: ws => w ++ ' ' :: joinSpace ws

/-- Whitespace normalization: collapse runs to single spaces and trim. -/
def normalizaWS (l : List Char) : List Char := joinSpace (palavras l)

/-- Is the first character whitespace? -/
def headWS : List Char → Bool
  | [] => false
  | c :: _ => isWS c

/-- Fuel-indexed model of `re.split(r'(?<=[P])\s+', ·)`: split right after a
character satisfying `P` whenever it is followed by whitespace, consuming the
whole whitespace run.  `acc` holds the current piece reversed. -/
def reSplitF (P : Char → Bool) : Nat → List Char → List Char → List (List Char)
  | 0, acc, resto => [acc.reverse ++ resto]
  | _ + 1, acc, [] => [acc.reverse]
  | fuel + 1, acc, c :: resto =>
    if P c && headWS resto then
      (acc.reverse ++ [c]) :: reSplitF P fuel [] (resto.dropWhile isWS)
    else
      reSplitF P fuel (c :: acc) resto

/-- `re.split(r'(?<=[.!?])\s+', texto)` and, with `P := ehVirgula`,
`re.split(r'(?<=,)\s+', parte)`. -/
def reSplitDepois (P : Char → Bool) (l : List Char) : List (List Char) :=
  reSplitF P (l.length + 1) [] l

/-- The sentence-final punctuation class `[.!?]`. -/
def ehFimDeSentenca (c : Char) : Bool := c = '.' || c = '!' || c = '?'

/-- The clause separator class `[,]`. -/
def ehVirgula (c : Char) : Bool := c = ','

/-- Inner loop of `_dividir_em_sentencas`: greedy packing of the comma-clauses
of one oversized sentence piece.  Returns the chunks flushed inside the loop,
in order, together with the final value of `sub`. -/
def clausulasLoop (maxChars : Nat) : List (List Char) → List Char →
    List (List Char) × List Char
  | [], sub => ([], sub)
  | c :: resto, sub =>
    if sub.length + c.length + 1 ≤ maxChars then
      clausulasLoop maxChars resto (if sub = [] then c else stripWS (sub ++ ' ' :: c))
    else
      let r := clausulasLoop maxChars resto c
      ((if sub = [] then r.1 else stripWS sub :: r.1), r.2)

/-- Outer loop of `_dividir_em_sentencas` over the sentence pieces.  Returns
the chunks appended to `sentencas`, in order, together with the final buffer. -/
def partesLoop (maxChars : Nat) : List (List Char) → List Char →
    List (List Char) × List Char
  | [], buffer => ([], buffer)
  | p :: resto, buffer =>
    if stripWS p = [] then partesLoop maxChars resto buffer
    else if buffer.length + p.length + 1 ≤ maxChars then
      partesLoop maxChars resto (if buffer = [] then p else stripWS (buffer ++ ' ' :: p))
    else
      let descarga : List (List Char) := if buffer = [] then [] else [stripWS buffer]
      if maxChars < p.length then
        let ci := clausulasLoop maxChars (reSplitDepois ehVirgula p) []
        let r := partesLoop maxChars resto ci.2
        (descarga ++ ci.1 ++ r.1, r.2)
      else
        let r := partesLoop maxChars resto p
        (descarga ++ r.1, r.2)

/-- `TTSNarrator._dividir_em_sentencas`. -/
def dividirEmSentencas (texto : List Char) (maxChars : Nat := 230) :
    List (List Char) :=
  let partes := reSplitDepois ehFimDeSentenca texto
  let r := partesLoop maxChars partes []
  let sentencas := r.1 ++ (if r.2 = [] then [] else [stripWS r.2])
  sentencas.filter (fun s => !(stripWS s).isEmpty)

/-- The character filter `re.sub` of the class complementary to
`\x00-\x7F`, `À-ɏ`, `Ḁ-ỿ` (first line of both
`_limpar_texto` variants): keep only those ranges. -/
def manterChar (c : Char) : Bool :=
  c.toNat ≤ 0x7F || (0xC0 ≤ c.toNat && c.toNat ≤ 0x24F) ||
  (0x1E00 ≤ c.toNat && c.toNat ≤ 0x1EFF)

/-- Removal of markdown decoration: runs of the single-character markers are
removed outright, and `'_'` is removed exactly when it is adjacent to another
`'_'` in the original string (the `_{2,}` case keeps lone underscores). -/
def rmMdGo (marcador : Char → Bool) (prev : Option Char) : List Char → List Char
  | [] => []
  | c :: resto =>
    if marcador c then rmMdGo marcador (some c) resto
    else if c = '_' then
      (if prev = some '_' || resto.head? = some '_' then rmMdGo marcador (some c) resto
       else '_' :: rmMdGo marcador (some c) resto)
    else c :: rmMdGo marcador (some c) resto

/-- Markers of `tts_narrator`'s markdown regex: `*`, `#`, backtick, `[`, `]`
(the bracket characters themselves are single-character alternatives). -/
def ehMarcadorMd (c : Char) : Bool :=
  c = '*' || c = '#' || c = Char.ofNat 96 || c = '[' || c = ']'

/-- Markers of `chatterbox_narrator`'s markdown regex: no brackets. -/
def ehMarcadorMdCb (c : Char) : Bool :=
  c = '*' || c = '#' || c = Char.ofNat 96

/-- `TTSNarrator._limpar_texto`: charset filter, markdown/bracket-character
removal, whitespace collapse, strip. -/
def limparTexto (texto : List Char) : List Char :=
  stripWS (collapseWS (rmMdGo ehMarcadorMd none (texto.filter manterChar)))

/-- Generic model of `re.sub(pattern, repl, texto)` for the patterns in this
file: `tenta prev resto` returns `some (subst, n)` when the pattern matches a
prefix of `resto` of length `n > 0` (`prev` is the character preceding the
match in the original string, for word boundaries and lookbehinds); the match
is replaced by `subst` and scanning resumes after the matched text. -/
def subScanF (tenta : Option Char → List Char → Option (List Char × Nat)) :
    Nat → Option Char → List Char → List Char
  | 0, _, resto => resto
  | _ + 1, _, [] => []
  | fuel + 1, prev, c :: resto =>
    match tenta prev (c :: resto) with
    | some (subst, n) =>
      subst ++ subScanF tenta fuel (((c :: resto).take n).getLast?) ((c :: resto).drop n)
    | none => c :: subScanF tenta fuel (some c) resto

/-- Run a substitution scanner over a whole string. -/
def subRegex (tenta : Option Char → List Char → Option (List Char × Nat))
    (l : List Char) : List Char :=
  subScanF tenta (l.length + 1) none l

/-- Python `\w` on the character ranges reachable after the charset filter:
ASCII alphanumerics, underscore, and the Latin letter ranges (excluding the
`×` and `÷` signs). -/
def ehWordChar (c : Char) : Bool :=
  ('a' ≤ c && c ≤ 'z') || ('A' ≤ c && c ≤ 'Z') || ('0' ≤ c && c ≤ '9') || c = '_' ||
  (0xC0 ≤ c.toNat && c.toNat ≤ 0x24F && !(c.toNat = 0xD7) && !(c.toNat = 0xF7)) ||
  (0x1E00 ≤ c.toNat && c.toNat ≤ 0x1EFF)

/-- A `\b` word boundary holds before a word character iff the previous
character is absent or not a word character. -/
def naoEhWord (prev : Option Char) : Bool :=
  match prev with
  | none => true
  | some p => !ehWordChar p

/-- ASCII lowering plus the accented letters appearing in the patterns
(`re.IGNORECASE` matching). -/
def minusculaPt (c : Char) : Char :=
  if 'A' ≤ c && c ≤ 'Z' then Char.ofNat (c.toNat + 32)
  else if c = 'É' then 'é'
  else c

/-- Case-insensitive literal match: `padrao` is given lowercase; returns the
rest of the text after the matched prefix. -/
def matchCI : List Char → List Char → Option (List Char)
  | [], resto => some resto
  | _ :: _, [] => none
  | p :: ps, c :: resto => if minusculaPt c = p then matchCI ps resto else none

/-- Pattern shape `\bWORD\.(?=\s)` → fixed replacement (the `Dr.`, `Dra.`,
`Prof.`, `Profa.`, `ex.` rules). -/
def tentaTituloPonto (palavra subst : List Char) (prev : Option Char)
    (resto : List Char) : Option (List Char × Nat) :=
  if naoEhWord prev then
    match matchCI palavra resto with
    | some ('.' :: r2) => if headWS r2 then some (subst, palavra.length + 1) else none
    | _ => none
  else none

/-- Pattern shape `\bWORD\.` → fixed replacement (the `etc.`, `vs.` rules). -/
def tentaPalavraPonto (palavra subst : List Char) (prev : Option Char)
    (resto : List Char) : Option (List Char × Nat) :=
  if naoEhWord prev then
    match matchCI palavra resto with
    | some ('.' :: _) => some (subst, palavra.length + 1)
    | _ => none
  else none

/-- Pattern shape `\bWORD\b` → fixed replacement (the `pq`, `tb` rules). -/
def tentaPalavraSo (palavra subst : List Char) (prev : Option Char)
    (resto : List Char) : Option (List Char × Nat) :=
  if naoEhWord prev then
    match matchCI palavra resto with
    | some r =>
      match r.head? with
      | none => some (subst, palavra.length)
      | some d => if ehWordChar d then none else some (subst, palavra.length)
    | none => none
  else none

/-- The rule `\bséc\.\s*(\w+)` → `século \1`. -/
def tentaSeculo (prev : Option Char) (resto : List Char) :
    Option (List Char × Nat) :=
  if naoEhWord prev then
    match matchCI "séc".data resto with
    | some ('.' :: r2) =>
      let espacos := r2.takeWhile isWS
      let r3 := r2.drop espacos.length
      let grupo := r3.takeWhile ehWordChar
      if grupo = [] then none
      else some ("século ".data ++ grupo, 4 + espacos.length + grupo.length)
    | _ => none
  else none

/-- ASCII digits (`\d` on the reachable character ranges). -/
def ehDigito (c : Char) : Bool := '0' ≤ c && c ≤ '9'

/-- Pattern shape `(\d+)\s*UNIT\b` → `\1 TEXT` (the `km`, `kg`, `m` rules). -/
def tentaUnidade (unidade subst : List Char) (prev : Option Char)
    (resto : List Char) : Option (List Char × Nat) :=
  let digitos := resto.takeWhile ehDigito
  if digitos = [] then none
  else
    let r1 := resto.drop digitos.length
    let espacos := r1.takeWhile isWS
    let r2 := r1.drop espacos.length
    match matchCI unidade r2 with
    | some r3 =>
      let borda := match r3.head? with
        | none => true
        | some d => !ehWordChar d
      if borda then
        some (digitos ++ ' ' :: subst, digitos.length + espacos.length + unidade.length)
      else none
    | none => none

/-- The rule `(\d+)\s*%` → `\1 por cento`. -/
def tentaPorCento (prev : Option Char) (resto : List Char) :
    Option (List Char × Nat) :=
  let digitos := resto.takeWhile ehDigito
  if digitos = [] then none
  else
    let r1 := resto.drop digitos.length
    let espacos := r1.takeWhile isWS
    match r1.drop espacos.length with
    | '%' :: _ => some (digitos ++ " por cento".data, digitos.length + espacos.length + 1)
    | _ => none

/-- The rule `(\d+)\s*°C` → `\1 graus Celsius` (case-insensitive `C`). -/
def tentaGrausC (prev : Option Char) (resto : List Char) :
    Option (List Char × Nat) :=
  let digitos := resto.takeWhile ehDigito
  if digitos = [] then none
  else
    let r1 := resto.drop digitos.length
    let espacos := r1.takeWhile isWS
    match r1.drop espacos.length with
    | g :: c2 :: _ =>
      if g = '°' && minusculaPt c2 = 'c' then
        some (digitos ++ " graus Celsius".data, digitos.length + espacos.length + 2)
      else none
    | _ => none

/-- `TTSNarrator._expandir_abreviacoes`: the ordered rule table, each rule a
full `re.sub` pass with `re.IGNORECASE`. -/
def expandirAbreviacoes (texto : List Char) : List Char :=
  let t := subRegex (tentaTituloPonto "dr".data "Doutor ".data) texto
  let t := subRegex (tentaTituloPonto "dra".data "Doutora ".data) t
  let t := subRegex (tentaTituloPonto "prof".data "Professor ".data) t
  let t := subRegex (tentaTituloPonto "profa".data "Professora ".data) t
  let t := subRegex (tentaPalavraPonto "etc".data "etcetera".data) t
  let t := subRegex (tentaPalavraPonto "vs".data "versus".data) t
  let t := subRegex (tentaTituloPonto "ex".data "por exemplo ".data) t
  let t := subRegex (tentaPalavraSo "pq".data "porque".data) t
  let t := subRegex (tentaPalavraSo "tb".data "também".data) t
  let t := subRegex tentaSeculo t
  let t := subRegex (tentaUnidade "km".data "quilômetros".data) t
  let t := subRegex (tentaUnidade "kg".data "quilogramas".data) t
  let t := subRegex (tentaUnidade "m".data "metros".data) t
  let t := subRegex tentaPorCento t
  subRegex tentaGrausC t

/-- Units digit words of pt-BR. -/
def unidadePt : Nat → List Char
  | 1 => "um".data
  | 2 => "dois".data
  | 3 => "três".data
  | 4 => "quatro".data
  | 5 => "cinco".data
  | 6 => "seis".data
  | 7 => "sete".data
  | 8 => "oito".data
  | 9 => "nove".data
  | _ => []

/-- Teens of pt-BR. -/
def adolescentePt : Nat → List Char
  | 10 => "dez".data
  | 11 => "onze".data
  | 12 => "doze".data
  | 13 => "treze".data
  | 14 => "catorze".data
  | 15 => "quinze".data
  | 16 => "dezesseis".data
  | 17 => "dezessete".data
  | 18 => "dezoito".data
  | 19 => "dezenove".data
  | _ => []

/-- Tens words of pt-BR. -/
def dezenaPt : Nat → List Char
  | 2 => "vinte".data
  | 3 => "trinta".data
  | 4 => "quarenta".data
  | 5 => "cinquenta".data
  | 6 => "sessenta".data
  | 7 => "setenta".data
  | 8 => "oitenta".data
  | 9 => "noventa".data
  | _ => []

/-- Hundreds words of pt-BR. -/
def centenaPt : Nat → List Char
  | 2 => "duzentos".data
  | 3 => "trezentos".data
  | 4 => "quatrocentos".data
  | 5 => "quinhentos".data
  | 6 => "seiscentos".data
  | 7 => "setecentos".data
  | 8 => "oitocentos".data
  | 9 => "novecentos".data
  | _ => []

/-- Numbers below one hundred in pt-BR words. -/
def numeroAte99 (n : Nat) : List Char :=
  if n < 10 then unidadePt n
  else if n < 20 then adolescentePt n
  else dezenaPt (n / 10) ++ (if n % 10 = 0 then [] else " e ".data ++ unidadePt (n % 10))

/-- Modelled from the spec: the external `num2words(·, lang='pt_BR')`
capability ("spoken-word form in the target language") for the only values
reachable from the pattern, 1–999. -/
def numeroPorExtenso (n : Nat) : List Char :=
  if n < 100 then numeroAte99 n
  else if n = 100 then "cem".data
  else if n < 200 then "cento e ".data ++ numeroAte99 (n % 100)
  else centenaPt (n / 100) ++ (if n % 100 = 0 then [] else " e ".data ++ numeroAte99 (n % 100))

/-- Numeric value of a digit run. -/
def valorDe (digitos : List Char) : Nat :=
  digitos.foldl (fun a c => a * 10 + (c.toNat - '0'.toNat)) 0

/-- The rule `(?<![,.\d])\b([1-9]\d{0,2})\b(?![.,\d])` of
`_numeros_por_extenso` (the `val >= 1000` guard in `_conv` is unreachable:
the group captures at most three digits). -/
def tentaNumero (prev : Option Char) (resto : List Char) :
    Option (List Char × Nat) :=
  let atras := match prev with
    | none => true
    | some p => !ehWordChar p && !(p = ',' || p = '.')
  if atras then
    let digitos := resto.takeWhile ehDigito
    match digitos.head? with
    | some d0 =>
      if d0 = '0' then none
      else if digitos.length ≤ 3 then
        let borda := match (resto.drop digitos.length).head? with
          | none => true
          | some d => !ehWordChar d && !(d = '.' || d = ',')
        if borda then some (numeroPorExtenso (valorDe digitos), digitos.length)
        else none
      else none
    | none => none
  else none

/-- `TTSNarrator._numeros_por_extenso`; `disponivel` records whether the
optional `num2words` import succeeds (on `ImportError` the text passes
through unchanged). -/
def numerosPorExtenso (disponivel : Bool) (texto : List Char) : List Char :=
  if disponivel then subRegex tentaNumero texto else texto

/-- `re.sub(r'\.{2,}', '.', ·)`: each maximal run of two or more dots becomes
a single dot, i.e. a dot is dropped exactly when the previous character is a
dot. -/
def squeezeDotsGo (prev : Option Char) : List Char → List Char
  | [] => []
  | c :: resto =>
    if c = '.' && prev = some '.' then squeezeDotsGo (some c) resto
    else c :: squeezeDotsGo (some c) resto

/-- The ellipsis normalization pass of `_preparar_texto`. -/
def squeezeDots (l : List Char) : List Char := squeezeDotsGo none l

/-- The rule `\s*--\s*` → `, `. -/
def tentaTravessao (prev : Option Char) (resto : List Char) :
    Option (List Char × Nat) :=
  let esq := resto.takeWhile isWS
  match resto.drop esq.length with
  | '-' :: '-' :: r2 =>
    let dir := r2.takeWhile isWS
    some (", ".data, esq.length + 2 + dir.length)
  | _ => none

/-- The double-hyphen normalization pass of `_preparar_texto`. -/
def subTravessoes (l : List Char) : List Char := subRegex tentaTravessao l

/-- `TTSNarrator._preparar_texto`: clean, expand abbreviations, spell out
numbers, normalize punctuation, collapse whitespace, strip. -/
def prepararTexto (disponivel : Bool) (texto : List Char) : List Char :=
  let t := limparTexto texto
  let t := expandirAbreviacoes t
  let t := numerosPorExtenso disponivel t
  let t := squeezeDots t
  let t := subTravessoes t
  stripWS (collapseWS t)

/-- Index of the first occurrence of `fecho`, provided no forbidden character
occurs before it (used for the non-greedy `.*?` up to a closing bracket: `.`
does not match a newline). -/
def achaFecho (fecho : Char) (proibido : Char → Bool) : List Char → Option Nat
  | [] => none
  | c :: resto =>
    if c = fecho then some 0
    else if proibido c then none
    else match achaFecho fecho proibido resto with
      | some n => some (n + 1)
      | none => none

/-- The chatterbox rule `\[.*?\]` → `''`. -/
def tentaColchetes (prev : Option Char) (resto : List Char) :
    Option (List Char × Nat) :=
  match resto with
  | '[' :: r1 =>
    match achaFecho ']' (fun c => c = '\n') r1 with
    | some n => some ([], n + 2)
    | none => none
  | _ => none

/-- The capital-letter class `[A-ZÁÀÃÂÉÊÍÓÕÔÚÇ]`. -/
def ehMaiusculaPt (c : Char) : Bool :=
  ('A' ≤ c && c ≤ 'Z') ||
  c = 'Á' || c = 'À' || c = 'Ã' || c = 'Â' || c = 'É' || c = 'Ê' ||
  c = 'Í' || c = 'Ó' || c = 'Õ' || c = 'Ô' || c = 'Ú' || c = 'Ç'

/-- The chatterbox rule `\([A-ZÁÀÃÂÉÊÍÓÕÔÚÇ][^)]{0,40}\)` → `''`. -/
def tentaParenteses (prev : Option Char) (resto : List Char) :
    Option (List Char × Nat) :=
  match resto with
  | '(' :: m :: r2 =>
    if ehMaiusculaPt m then
      let corpo := r2.takeWhile (fun c => !(c = ')'))
      if corpo.length ≤ 40 then
        match (r2.drop corpo.length).head? with
        | some ')' => some ([], corpo.length + 3)
        | _ => none
      else none
    else none
  | _ => none

/-- The capital-letter class `[A-ZÁÀÃÂÉÊÍ]` of the filler-word lookahead. -/
def ehMaiusculaCurta (c : Char) : Bool :=
  ('A' ≤ c && c ≤ 'Z') ||
  c = 'Á' || c = 'À' || c = 'Ã' || c = 'Â' || c = 'É' || c = 'Ê' || c = 'Í'

/-- The filler words of the chatterbox crutch-removal rule. -/
def palavrasMuleta : List (List Char) :=
  ["Ponto".data, "Pausa".data, "Silêncio".data, "Fim".data, "Pronto".data]

/-- First alternative of `(?:Ponto|Pausa|Silêncio|Fim|Pronto)` matching a
prefix of the text; returns its length. -/
def achaMuleta (resto : List Char) : Option Nat :=
  (palavrasMuleta.find? (fun w => w.isPrefixOf resto)).map List.length

/-- The chatterbox rule
`(?<=[.!?])\s+(?:Ponto|Pausa|Silêncio|Fim|Pronto)\.(?=\s+[A-ZÁÀÃÂÉÊÍ])` → `''`. -/
def tentaMuleta (prev : Option Char) (resto : List Char) :
    Option (List Char × Nat) :=
  let atras := match prev with
    | some p => ehFimDeSentenca p
    | none => false
  if atras && headWS resto then
    let espacos := resto.takeWhile isWS
    let r1 := resto.drop espacos.length
    match achaMuleta r1 with
    | some n =>
      match r1.drop n with
      | '.' :: r2 =>
        let esp2 := r2.takeWhile isWS
        if esp2 = [] then none
        else
          match (r2.drop esp2.length).head? with
          | some m =>
            if ehMaiusculaCurta m then some ([], espacos.length + n + 1) else none
          | none => none
      | _ => none
    | none => none
  else none

/-- `ChatterboxNarrator._limpar_texto`: charset filter, bracketed-annotation
removal (with content), short capitalized parentheticals, crutch words,
markdown, whitespace collapse, strip. -/
def limparTextoCb (texto : List Char) : List Char :=
  let t := texto.filter manterChar
  let t := subRegex tentaColchetes t
  let t := subRegex tentaParenteses t
  let t := subRegex tentaMuleta t
  let t := rmMdGo ehMarcadorMdCb none t
  stripWS (collapseWS t)

/-- `_PAUSAS_MS` lookup with the `_PAUSA_DEFAULT_MS` fallback. -/
def pausasMS (c : Char) : Nat :=
  if c = '.' then 380
  else if c = '!' then 320
  else if c = '?' then 320
  else if c = ';' then 220
  else if c = ':' then 180
  else if c = ',' then 90
  else 250

/-- `TTSNarrator._pausa_por_pontuacao`: duration in ms of the generated pause,
keyed on the last character after `rstrip`, defaulting to `'.'` when the
sentence is all whitespace. -/
def pausaPorPontuacao (sentenca : List Char) : Nat :=
  pausasMS (match (rstripWS sentenca).getLast? with
    | some c => c
    | none => '.')

/-- Outcome of one chunk synthesis in `sintetizar_cena`'s loop: the genuine
trimmed engine output (abstracted to its duration in ms), or the 500 ms
fallback silence substituted when the attempt raised. -/
inductive ResSintese where
  | genuina (dur : Nat)
  | reserva500
deriving DecidableEq, Repr

/-- The recorded outcome of synthesizing one chunk with the engine oracle
`synth` (`none` means the attempt raised somewhere inside the `try`). -/
def resultadoSintese (synth : List Char → Option Nat) (sent : List Char) :
    ResSintese :=
  match synth sent with
  | some dur => .genuina dur
  | none => .reserva500

/-- The per-chunk loop of `sintetizar_cena` (lines 612–627): one synthesis
attempt per sentence, a raising attempt caught and replaced by a fallback
silence.  Returns the number of synthesis attempts made and the `segmentos`
list in order. -/
def sintetizarSegmentos (synth : List Char → Option Nat) :
    List (List Char) → Nat × List (List Char × ResSintese)
  | [] => (0, [])
  | sent :: resto =>
    let seg := resultadoSintese synth sent
    let r := sintetizarSegmentos synth resto
    (r.1 + 1, (sent, seg) :: r.2)

/-- One piece of the assembled scene track: a chunk's audio segment or an
inter-sentence pause. -/
inductive Peca where
  | trecho (sent : List Char) (r : ResSintese)
  | pausa (ms : Nat)
deriving DecidableEq, Repr

/-- Assembly loop of `sintetizar_cena` (lines 630–635): `enumerate` over
`segmentos`, appending each segment and, while `idx < len(segmentos) - 1`, a
punctuation-keyed pause. -/
def montarGo (total : Nat) (idx : Nat) : List (List Char × ResSintese) → List Peca
  | [] => []
  | (sent, seg) :: resto =>
    Peca.trecho sent seg ::
      (if idx < total - 1 then
        Peca.pausa (pausaPorPontuacao sent) :: montarGo total (idx + 1) resto
      else montarGo total (idx + 1) resto)

/-- The assembled scene before post-processing. -/
def montarCena (segmentos : List (List Char × ResSintese)) : List Peca :=
  montarGo segmentos.length 0 segmentos

/-- The exported scene audio: the fixed silence written for empty text, or
the assembled chunk/pause sequence (post-processing changes samples, not this
structure). -/
inductive SaidaCena where
  | silencioFixo (ms : Nat)
  | montada (pecas : List Peca)
deriving DecidableEq, Repr

/-- What a call to `sintetizar_cena` produces: the exported audio, the
returned path, and how many synthesis attempts were made. -/
structure ResultadoCena where
  saida : SaidaCena
  caminho : String
  chamadas : Nat
deriving DecidableEq, Repr

/-- `TTSNarrator.sintetizar_cena` (lines 589–641); the loaded engine handle
is the `synth` oracle, `disponivel` the `num2words` availability. -/
def sintetizarCena (disponivel : Bool) (synth : List Char → Option Nat)
    (texto : String) (outputPath : String) : ResultadoCena :=
  let t := prepararTexto disponivel texto.data
  if t = [] then
    { saida := .silencioFixo 1000, caminho := outputPath, chamadas := 0 }
  else
    let sentencas := dividirEmSentencas t 230
    let r := sintetizarSegmentos synth sentencas
    { saida := .montada (montarCena r.2), caminho := outputPath, chamadas := r.1 }

/-- `TTSNarrator._strip_silence`, with pydub's `detect_leading_silence`
abstracted as the oracle `dl` (the same fixed threshold is used at both
ends); audio is a list of per-millisecond slices.  Python's
`max(0, · - margin)` is truncated `Nat` subtraction; `end` may be a negative
`int` in Python, hence `fim : Int`. -/
def stripSilence (dl : List α → Nat) (headMs tailMs : Nat) (faixa : List α) :
    List α :=
  let lead := dl faixa - headMs
  let trail := dl faixa.reverse - tailMs
  let fim : Int :=
    if 0 < trail then (faixa.length : Int) - (trail : Int) else (faixa.length : Int)
  if (lead : Int) < fim then (faixa.drop lead).take (fim - (lead : Int)).toNat
  else faixa

/-- Oracles for the external audio steps of `_preparar_referencia_voz`
(pydub, scipy, soundfile, tempfile); `A` is loaded audio, `S` a sample
array.  A fallible call returns `Except`, `.error` meaning the step raised. -/
structure VozOracle (A S : Type) where
  carregar : String → Except Unit A
  detectarFala : A → Nat → Int → Except Unit (List (Nat × Nat))
  fatiar : A → Nat → Nat → A
  amostras : A → Except Unit S
  passaAlta : S → Except Unit S
  detectarPausas : A → Nat → Int → Except Unit (List (Nat × Nat))
  recortar : S → Nat → S
  subtrairEspectro : S → S → Except Unit S
  normalizarPico : S → Except Unit S
  criarTemp : Except Unit String
  escrever : String → S → Except Unit Unit
  diagnosticar : S → S → Except Unit Unit

/-- End of the last detected speech interval (`partes_fala[-1][1]`). -/
def ultimaFala (partes : List (Nat × Nat)) (padrao : Nat) : Nat :=
  match partes.getLast? with
  | some p => p.2
  | none => padrao

/-- Internal noise-reference fallback of `_preparar_referencia_voz` (lines
158–171): an internal pause of the extracted excerpt, else its first 200 ms
(4410 samples at 22050 Hz). -/
def vozRuidoInterno (o : VozOracle A S) (trecho : A) (samples : S) :
    Except Unit S := do
  let sils ← o.detectarPausas trecho 200 (-42)
  match sils with
  | (s0, e0) :: _ => o.amostras (o.fatiar trecho s0 e0)
  | [] => pure (o.recortar samples 4410)

/-- Body of `_preparar_referencia_voz`'s `try` block (lines 107–215). -/
def vozCorpo (o : VozOracle A S) (wavPath : String) : Except Unit String := do
  let som ← o.carregar wavPath
  let partesFala ← o.detectarFala som 400 (-38)
  let trecho :=
    match partesFala with
    | [] => o.fatiar som 0 30000
    | (ini, _) :: _ => o.fatiar som ini (min (ini + 30000) (ultimaFala partesFala 0))
  let samples ← o.amostras trecho
  let samples ← o.passaAlta samples
  let somOrig ← o.carregar wavPath
  let falaOrig ← o.detectarFala somOrig 300 (-38)
  let somOrigMono ← o.carregar wavPath
  let escolhaRuido : Except Unit S :=
    match falaOrig with
    | (ini, _) :: _ =>
      if 300 < ini then o.amostras (o.fatiar somOrigMono 0 ini)
      else vozRuidoInterno o trecho samples
    | [] => vozRuidoInterno o trecho samples
  let noiseRef ← escolhaRuido
  let limpo ← o.subtrairEspectro samples noiseRef
  let limpo ← o.normalizarPico limpo
  let tmp ← o.criarTemp
  o.escrever tmp limpo
  o.diagnosticar samples limpo
  pure tmp

/-- `TTSNarrator._preparar_referencia_voz`: the `except` wrapper returns the
original path untouched on any internal failure, the fresh temp path on
success. -/
def prepararReferenciaVoz (o : VozOracle A S) (wavPath : String) : String :=
  match vozCorpo o wavPath with
  | .ok tmp => tmp
  | .error _ => wavPath

/-- A fixture oracle whose external calls all raise. -/
def vozOracleFalho : VozOracle Unit Unit where
  carregar := fun _ => .error ()
  detectarFala := fun _ _ _ => .error ()
  fatiar := fun _ _ _ => ()
  amostras := fun _ => .error ()
  passaAlta := fun _ => .error ()
  detectarPausas := fun _ _ _ => .error ()
  recortar := fun _ _ => ()
  subtrairEspectro := fun _ _ => .error ()
  normalizarPico := fun _ => .error ()
  criarTemp := .error ()
  escrever := fun _ _ => .error ()
  diagnosticar := fun _ _ => .error ()

/-- A fixture oracle whose external calls all succeed. -/
def vozOracleBom : VozOracle Unit Unit where
  carregar := fun _ => .ok ()
  detectarFala := fun _ _ _ => .ok []
  fatiar := fun _ _ _ => ()
  amostras := fun _ => .ok ()
  passaAlta := fun _ => .ok ()
  detectarPausas := fun _ _ _ => .ok []
  recortar := fun _ _ => ()
  subtrairEspectro := fun _ _ => .ok ()
  normalizarPico := fun _ => .ok ()
  criarTemp := .ok "tmp_ref.wav"
  escrever := fun _ _ => .ok ()
  diagnosticar := fun _ _ => .ok ()

/-- Is this assembled piece an inter-sentence pause? -/
def ehPausa : Peca → Bool
  | .pausa _ => true
  | .trecho _ _ => false

/-- Number of inter-sentence pauses in an assembled scene. -/
def contaPausas (pecas : List Peca) : Nat := (pecas.filter ehPausa).length

/-- Number of chunk segments in an assembled scene. -/
def contaTrechos (pecas : List Peca) : Nat :=
  (pecas.filter (fun p => !ehPausa p)).length

/-- Reference form of the assembly loop: each chunk followed by its pause,
except the last chunk. -/
def montarSeq : List (List Char × ResSintese) → List Peca
  | [] => []
  | [(sent, seg)] => [Peca.trecho sent seg]
  | (sent, seg) :: resto =>
    Peca.trecho sent seg :: Peca.pausa (pausaPorPontuacao sent) :: montarSeq resto

/-- No position where a `P`-character is immediately followed by whitespace;
such a string is unsplittable by `reSplitDepois P`. -/
def semQuebraB (P : Char → Bool) : List Char → Bool
  | a :: b :: resto => !(P a && isWS b) && semQuebraB P (b :: resto)
  | _ => true

end TTSNarr

namespace TTSNarr

theorem dropWhile_head_false (p : Char → Bool) :
    ∀ (l : List Char) c t, l.dropWhile p = c :: t → p c = false := by
  intro l
  induction l with
  | nil => intro c t h; simp at h
  | cons a l ih =>
    intro c t h
    rw [List.dropWhile_cons] at h
    split at h
    · exact ih c t h
    · cases h
      simp_all

theorem dropWhile_dropWhile (p : Char → Bool) (l : List Char) :
    (l.dropWhile p).dropWhile p = l.dropWhile p := by
  cases h : l.dropWhile p with
  | nil => simp
  | cons c t =>
    have hc := dropWhile_head_false p l c t h
    simp [List.dropWhile_cons, hc]

theorem lstripWS_idem (l : List Char) : lstripWS (lstripWS l) = lstripWS l :=
  dropWhile_dropWhile isWS l

theorem rstripWS_idem (l : List Char) : rstripWS (rstripWS l) = rstripWS l := by
  unfold rstripWS
  rw [List.reverse_reverse, dropWhile_dropWhile]

theorem rstripWS_isPre (l : List Char) : rstripWS l <+: l := by
  have h : (l.reverse.dropWhile isWS).reverse <+: l.reverse.reverse :=
    (List.reverse_prefix).mpr (List.dropWhile_suffix isWS)
  rwa [List.reverse_reverse] at h

theorem lstrip_decomp (l : List Char) :
    ∃ w, l = w ++ lstripWS l ∧ ∀ c ∈ w, isWS c = true := by
  refine ⟨l.takeWhile isWS, (List.takeWhile_append_dropWhile isWS l).symm, ?_⟩
  intro c hc
  exact List.mem_takeWhile_imp hc

theorem rstrip_decomp (l : List Char) :
    ∃ w, l = rstripWS l ++ w ∧ ∀ c ∈ w, isWS c = true := by
  refine ⟨(l.reverse.takeWhile isWS).reverse, ?_, ?_⟩
  · have h := congrArg List.reverse (List.takeWhile_append_dropWhile isWS l.reverse)
    rw [List.reverse_append, List.reverse_reverse] at h
    exact h.symm
  · intro c hc
    rw [List.mem_reverse] at hc
    exact List.mem_takeWhile_imp hc

theorem strip_decomp (l : List Char) :
    ∃ u v, l = u ++ (stripWS l ++ v) ∧ (∀ c ∈ u, isWS c = true) ∧
      (∀ c ∈ v, isWS c = true) := by
  obtain ⟨u, hu, hu2⟩ := lstrip_decomp l
  obtain ⟨v, hv, hv2⟩ := rstrip_decomp (lstripWS l)
  refine ⟨u, v, ?_, hu2, hv2⟩
  conv_lhs => rw [hu, hv]
  rfl

theorem stripWS_length_le (l : List Char) : (stripWS l).length ≤ l.length := by
  obtain ⟨u, v, h, _, _⟩ := strip_decomp l
  have := congrArg List.length h
  simp [List.length_append] at this
  omega

theorem stripWS_subset (l : List Char) : stripWS l ⊆ l := by
  obtain ⟨u, v, h, _, _⟩ := strip_decomp l
  intro c hc
  rw [h]
  simp [hc]

theorem isPre_head (l x : List Char) (c : Char) (t : List Char)
    (hp : x <+: l) (hx : x = c :: t) : ∃ t2, l = c :: t2 := by
  obtain ⟨r, hr⟩ := hp
  exact ⟨t ++ r, by rw [← hr, hx]; rfl⟩

theorem lstripWS_head_false (l : List Char) (c : Char) (t : List Char)
    (h : lstripWS l = c :: t) : isWS c = false :=
  dropWhile_head_false isWS l c t h

theorem stripWS_idem (l : List Char) : stripWS (stripWS l) = stripWS l := by
  show rstripWS (lstripWS (rstripWS (lstripWS l))) = rstripWS (lstripWS l)
  have hl : lstripWS (rstripWS (lstripWS l)) = rstripWS (lstripWS l) := by
    cases hy : rstripWS (lstripWS l) with
    | nil => simp [lstripWS]
    | cons c t =>
      obtain ⟨t2, ht2⟩ := isPre_head (lstripWS l) _ c t (rstripWS_isPre (lstripWS l)) hy
      have hc := lstripWS_head_false l c t2 ht2
      show List.dropWhile isWS (c :: t) = c :: t
      simp [List.dropWhile_cons, hc]
  rw [hl, rstripWS_idem]

theorem allWS_of_strip_nil (l : List Char) (h : stripWS l = []) :
    ∀ c ∈ l, isWS c = true := by
  obtain ⟨u, v, hd, hu, hv⟩ := strip_decomp l
  rw [h] at hd
  intro c hc
  rw [hd] at hc
  simp at hc
  rcases hc with h1 | h1
  · exact hu c h1
  · exact hv c h1

theorem wordsAux_nil (atual : List Char) :
    wordsAux atual [] = if atual = [] then [] else [atual.reverse] := rfl

theorem palavras_nil : palavras [] = [] := rfl

theorem wordsAux_sep (s : Char) (hs : isWS s = true) (b : List Char) :
    ∀ (a atual : List Char),
      wordsAux atual (a ++ s :: b) = wordsAux atual a ++ wordsAux [] b := by
  intro a
  induction a with
  | nil =>
    intro atual
    show wordsAux atual (s :: b) = _
    by_cases ha : atual = [] <;> simp [wordsAux, hs, ha]
  | cons c a ih =>
    intro atual
    show wordsAux atual (c :: (a ++ s :: b)) = wordsAux atual (c :: a) ++ _
    by_cases hc : isWS c = true
    · by_cases ha : atual = [] <;> simp [wordsAux, hc, ha, ih []]
    · simp only [wordsAux, hc]
      simp
      exact ih (c :: atual)

theorem palavras_sep (s : Char) (hs : isWS s = true) (a b : List Char) :
    palavras (a ++ s :: b) = palavras a ++ palavras b :=
  wordsAux_sep s hs b a []

theorem wordsAux_allWS :
    ∀ (w : List Char), (∀ c ∈ w, isWS c = true) →
      ∀ atual, wordsAux atual w = if atual = [] then [] else [atual.reverse] := by
  intro w
  induction w with
  | nil => intro _ atual; rfl
  | cons c w ih =>
    intro hw atual
    have hc : isWS c = true := hw c (by simp)
    have hw2 : ∀ x ∈ w, isWS x = true := fun x hx => hw x (by simp [hx])
    by_cases ha : atual = [] <;> simp [wordsAux, hc, ha, ih hw2]

theorem palavras_allWS (w : List Char) (hw : ∀ c ∈ w, isWS c = true) :
    palavras w = [] := by
  have := wordsAux_allWS w hw []
  simpa [palavras] using this

theorem wordsAux_append_allWS :
    ∀ (l w : List Char), (∀ c ∈ w, isWS c = true) →
      ∀ atual, wordsAux atual (l ++ w) = wordsAux atual l := by
  intro l
  induction l with
  | nil =>
    intro w hw atual
    rw [List.nil_append, wordsAux_allWS w hw, wordsAux_nil]
  | cons c l ih =>
    intro w hw atual
    show wordsAux atual (c :: (l ++ w)) = wordsAux atual (c :: l)
    by_cases hc : isWS c = true
    · by_cases ha : atual = [] <;> simp [wordsAux, hc, ha, ih w hw]
    · simp [wordsAux, hc, ih w hw]

theorem palavras_ws_left :
    ∀ (w l : List Char), (∀ c ∈ w, isWS c = true) →
      palavras (w ++ l) = palavras l := by
  intro w
  induction w with
  | nil => intro l _; rfl
  | cons c w ih =>
    intro l hw
    have hc := hw c (by simp)
    show wordsAux [] (c :: (w ++ l)) = _
    simp [wordsAux, hc]
    exact ih l (fun x hx => hw x (by simp [hx]))

theorem palavras_run (w : List Char) (hw : ∀ c ∈ w, isWS c = true)
    (hne : w ≠ []) (a b : List Char) :
    palavras (a ++ (w ++ b)) = palavras a ++ palavras b := by
  cases w with
  | nil => simp at hne
  | cons s w =>
    have hs := hw s (by simp)
    have hw2 : ∀ x ∈ w, isWS x = true := fun x hx => hw x (by simp [hx])
    rw [show a ++ ((s :: w) ++ b) = a ++ s :: (w ++ b) by simp]
    rw [palavras_sep s hs, palavras_ws_left w b hw2]

theorem palavras_strip (l : List Char) : palavras (stripWS l) = palavras l := by
  obtain ⟨u, v, hd, hu, hv⟩ := strip_decomp l
  conv_rhs => rw [hd]
  rw [palavras_ws_left u _ hu]
  exact (wordsAux_append_allWS (stripWS l) v hv []).symm

theorem palavras_joinSpace :
    ∀ (L : List (List Char)), palavras (joinSpace L) = (L.map palavras).flatten := by
  intro L
  induction L with
  | nil => rfl
  | cons w ws ih =>
    cases ws with
    | nil => simp [joinSpace]
    | cons w2 ws2 =>
      show palavras (w ++ ' ' :: joinSpace (w2 :: ws2)) = _
      rw [palavras_sep ' ' (by decide) w (joinSpace (w2 :: ws2)), ih]
      simp

theorem reSplitF_palavras (P : Char → Bool) :
    ∀ (fuel : Nat) (l acc : List Char), l.length < fuel →
      ((reSplitF P fuel acc l).map palavras).flatten = palavras (acc.reverse ++ l) := by
  intro fuel
  induction fuel with
  | zero => intro l acc h; omega
  | succ fuel ih =>
    intro l acc h
    cases l with
    | nil => simp [reSplitF]
    | cons c resto =>
      by_cases hsplit : (P c && headWS resto) = true
      · rw [show reSplitF P (fuel + 1) acc (c :: resto) =
            (acc.reverse ++ [c]) :: reSplitF P fuel [] (resto.dropWhile isWS) from by
          simp [reSplitF, hsplit]]
        have hlen : (resto.dropWhile isWS).length < fuel := by
          have h1 := (List.dropWhile_sublist (l := resto) isWS).length_le
          have h2 : resto.length < fuel := by simpa using Nat.lt_of_succ_lt_succ h
          omega
        rw [List.map_cons, List.flatten_cons, ih _ [] hlen]
        have hne : resto.takeWhile isWS ≠ [] := by
          cases resto with
          | nil => simp [headWS] at hsplit
          | cons d t =>
            have hd : isWS d = true := by
              have := hsplit
              simp [headWS] at this
              exact this.2
            simp [List.takeWhile_cons, hd]
        have hall : ∀ x ∈ resto.takeWhile isWS, isWS x = true :=
          fun x hx => List.mem_takeWhile_imp hx
        conv_rhs => rw [show acc.reverse ++ c :: resto =
          (acc.reverse ++ [c]) ++ (resto.takeWhile isWS ++ resto.dropWhile isWS) from by
            rw [List.takeWhile_append_dropWhile]; simp]
        rw [palavras_run _ hall hne]
        simp [palavras]
      · rw [show reSplitF P (fuel + 1) acc (c :: resto) =
            reSplitF P fuel (c :: acc) resto from by simp [reSplitF, hsplit]]
        rw [ih resto (c :: acc) (by simpa using Nat.lt_of_succ_lt_succ h)]
        congr 1
        simp

theorem reSplit_palavras (P : Char → Bool) (l : List Char) :
    ((reSplitDepois P l).map palavras).flatten = palavras l := by
  have := reSplitF_palavras P (l.length + 1) l [] (by omega)
  simpa [reSplitDepois] using this

theorem palavras_pack (sub c : List Char) :
    palavras (if sub = [] then c else stripWS (sub ++ ' ' :: c)) =
      palavras sub ++ palavras c := by
  by_cases hs : sub = []
  · simp [hs, palavras_nil]
  · rw [if_neg hs, palavras_strip, palavras_sep ' ' (by decide)]

theorem clausulasLoop_palavras (maxChars : Nat) :
    ∀ (cs : List (List Char)) (sub : List Char),
      ((clausulasLoop maxChars cs sub).1.map palavras).flatten ++
        palavras (clausulasLoop maxChars cs sub).2 =
      palavras sub ++ (cs.map palavras).flatten := by
  intro cs
  induction cs with
  | nil => intro sub; simp [clausulasLoop]
  | cons c resto ih =>
    intro sub
    by_cases hle : sub.length + c.length + 1 ≤ maxChars
    · rw [show clausulasLoop maxChars (c :: resto) sub =
          clausulasLoop maxChars resto (if sub = [] then c else stripWS (sub ++ ' ' :: c))
        from by simp [clausulasLoop, hle]]
      rw [ih, palavras_pack]
      simp
    · rw [show clausulasLoop maxChars (c :: resto) sub =
          ((if sub = [] then (clausulasLoop maxChars resto c).1
            else stripWS sub :: (clausulasLoop maxChars resto c).1),
            (clausulasLoop maxChars resto c).2) from by simp [clausulasLoop, hle]]
      by_cases hs : sub = []
      · simp only [hs, if_pos]
        rw [ih c]
        simp [palavras_nil]
      · simp only [if_neg hs, List.map_cons, List.flatten_cons, List.append_assoc]
        rw [ih c, palavras_strip]

theorem partesLoop_palavras (maxChars : Nat) :
    ∀ (ps : List (List Char)) (buffer : List Char),
      ((partesLoop maxChars ps buffer).1.map palavras).flatten ++
        palavras (partesLoop maxChars ps buffer).2 =
      palavras buffer ++ (ps.map palavras).flatten := by
  intro ps
  induction ps with
  | nil => intro buffer; simp [partesLoop]
  | cons p resto ih =>
    intro buffer
    by_cases hskip : stripWS p = []
    · rw [show partesLoop maxChars (p :: resto) buffer = partesLoop maxChars resto buffer
        from by simp [partesLoop, hskip]]
      rw [ih]
      have hp : palavras p = [] := by rw [← palavras_strip p, hskip, palavras_nil]
      simp [hp]
    · by_cases hle : buffer.length + p.length + 1 ≤ maxChars
      · rw [show partesLoop maxChars (p :: resto) buffer =
            partesLoop maxChars resto (if buffer = [] then p else stripWS (buffer ++ ' ' :: p))
          from by simp [partesLoop, hskip, hle]]
        rw [ih, palavras_pack]
        simp
      · by_cases hbig : maxChars < p.length
        · rw [show partesLoop maxChars (p :: resto) buffer =
              ((if buffer = [] then [] else [stripWS buffer]) ++
                (clausulasLoop maxChars (reSplitDepois ehVirgula p) []).1 ++
                (partesLoop maxChars resto
                  (clausulasLoop maxChars (reSplitDepois ehVirgula p) []).2).1,
                (partesLoop maxChars resto
                  (clausulasLoop maxChars (reSplitDepois ehVirgula p) []).2).2)
            from by simp [partesLoop, hskip, hle, hbig]]
          have hci := clausulasLoop_palavras maxChars (reSplitDepois ehVirgula p) []

          have hr := ih (clausulasLoop maxChars (reSplitDepois ehVirgula p) []).2
          simp only [List.map_append, List.flatten_append, List.append_assoc]
          rw [hr]
          rw [show ((clausulasLoop maxChars (reSplitDepois ehVirgula p) []).1.map
              palavras).flatten ++ (palavras
                (clausulasLoop maxChars (reSplitDepois ehVirgula p) []).2 ++
                (resto.map palavras).flatten) =
            (((clausulasLoop maxChars (reSplitDepois ehVirgula p) []).1.map
              palavras).flatten ++ palavras
                (clausulasLoop maxChars (reSplitDepois ehVirgula p) []).2) ++
                (resto.map palavras).flatten from by simp [List.append_assoc]]
          rw [hci, reSplit_palavras]
          by_cases hb : buffer = []
          · simp [hb, palavras_nil]
          · simp only [if_neg hb, List.map_cons, List.map_nil, List.flatten_cons,
              List.flatten_nil, List.append_nil, palavras_strip]
            simp [palavras_nil]
        · rw [show partesLoop maxChars (p :: resto) buffer =
              ((if buffer = [] then [] else [stripWS buffer]) ++
                (partesLoop maxChars resto p).1, (partesLoop maxChars resto p).2)
            from by simp [partesLoop, hskip, hle, hbig]]
          simp only [List.map_append, List.flatten_append, List.append_assoc]
          rw [ih p]
          by_cases hb : buffer = []
          · simp [hb, palavras_nil]
          · simp [if_neg hb, palavras_strip]

theorem flatten_filter_strip (L : List (List Char)) :
    ((L.filter (fun s => !(stripWS s).isEmpty)).map palavras).flatten =
      (L.map palavras).flatten := by
  induction L with
  | nil => rfl
  | cons x L ih =>
    by_cases hx : (stripWS x).isEmpty = true
    · have hnil : stripWS x = [] := by simpa using hx
      have hp : palavras x = [] := by rw [← palavras_strip x, hnil, palavras_nil]
      simp [List.filter_cons, hx, ih, hp]
    · simp [List.filter_cons, hx, ih]

theorem dividir_palavras (texto : List Char) (maxChars : Nat) :
    ((dividirEmSentencas texto maxChars).map palavras).flatten = palavras texto := by
  unfold dividirEmSentencas
  rw [flatten_filter_strip]
  simp only [List.map_append, List.flatten_append]
  have hloop := partesLoop_palavras maxChars (reSplitDepois ehFimDeSentenca texto) []
  rw [palavras_nil, List.nil_append] at hloop
  by_cases hr : (partesLoop maxChars (reSplitDepois ehFimDeSentenca texto) []).2 = []
  · rw [hr] at hloop
    rw [palavras_nil, List.append_nil] at hloop
    simp [hr, hloop, reSplit_palavras]
  · simp only [if_neg hr, List.map_cons, List.map_nil, List.flatten_cons,
      List.flatten_nil, List.append_nil, palavras_strip]
    rw [hloop, reSplit_palavras]

theorem bool_not_true (b : Bool) (h : (!b) = true) : b = false := by
  cases b
  · rfl
  · simp at h

theorem bool_ne_true (b : Bool) (h : ¬(b = true)) : b = false := by
  cases b
  · rfl
  · exact absurd rfl h

theorem semQuebraB_short (P : Char → Bool) (l : List Char) (h : l.length ≤ 1) :
    semQuebraB P l = true := by
  match l with
  | [] => rfl
  | [a] => rfl
  | a :: b :: t => simp at h

theorem semQuebraB_cons_eq (P : Char → Bool) (a b : Char) (t : List Char) :
    semQuebraB P (a :: b :: t) = (!(P a && isWS b) && semQuebraB P (b :: t)) := rfl

theorem semQuebraB_peel (P : Char → Bool) (a : Char) (t : List Char)
    (h : semQuebraB P (a :: t) = true) : semQuebraB P t = true := by
  cases t with
  | nil => rfl
  | cons b t =>
    rw [semQuebraB_cons_eq] at h
    exact (Bool.and_eq_true_iff.mp h).2

theorem semQuebraB_right (P : Char → Bool) :
    ∀ (a b : List Char), semQuebraB P (a ++ b) = true → semQuebraB P b = true := by
  intro a
  induction a with
  | nil => intro b h; exact h
  | cons x a ih => intro b h; exact ih b (semQuebraB_peel P x (a ++ b) h)

theorem semQuebraB_left (P : Char → Bool) :
    ∀ (a b : List Char), semQuebraB P (a ++ b) = true → semQuebraB P a = true := by
  intro a
  induction a with
  | nil => intro b h; rfl
  | cons x a ih =>
    intro b h
    cases a with
    | nil => rfl
    | cons y a2 =>
      rw [show (x :: y :: a2) ++ b = x :: y :: (a2 ++ b) from rfl,
        semQuebraB_cons_eq] at h
      rw [semQuebraB_cons_eq]
      rw [Bool.and_eq_true_iff] at h
      rw [Bool.and_eq_true_iff]
      exact ⟨h.1, ih b h.2⟩

theorem semQuebraB_cons_of (P : Char → Bool) (x : Char) (t : List Char)
    (hh : ∀ d, t.head? = some d → (P x && isWS d) = false)
    (ht : semQuebraB P t = true) : semQuebraB P (x :: t) = true := by
  cases t with
  | nil => rfl
  | cons d t2 =>
    rw [semQuebraB_cons_eq, Bool.and_eq_true_iff]
    exact ⟨by rw [hh d rfl]; rfl, ht⟩

theorem semQuebraB_glue (P : Char → Bool) :
    ∀ (xs ys : List Char), semQuebraB P xs = true → semQuebraB P ys = true →
      (∀ a b, xs.getLast? = some a → ys.head? = some b → (P a && isWS b) = false) →
      semQuebraB P (xs ++ ys) = true := by
  intro xs
  induction xs with
  | nil => intro ys _ h2 _; exact h2
  | cons x xs ih =>
    intro ys h1 h2 hj
    cases xs with
    | nil =>
      refine semQuebraB_cons_of P x ys ?_ h2
      intro d hd
      exact hj x d rfl hd
    | cons y xs2 =>
      have hglue : semQuebraB P ((y :: xs2) ++ ys) = true := by
        refine ih ys (semQuebraB_peel P x _ h1) h2 ?_
        intro a b ha hb
        refine hj a b ?_ hb
        rw [List.getLast?_cons_cons]
        exact ha
      refine semQuebraB_cons_of P x ((y :: xs2) ++ ys) ?_ hglue
      intro d hd
      have hdy : d = y := by
        simp at hd
        exact hd.symm
      subst hdy
      rw [semQuebraB_cons_eq, Bool.and_eq_true_iff] at h1
      exact bool_not_true _ h1.1

theorem semQuebraB_strip (P : Char → Bool) (l : List Char)
    (h : semQuebraB P l = true) : semQuebraB P (stripWS l) = true := by
  obtain ⟨u, v, hd, _, _⟩ := strip_decomp l
  rw [hd] at h
  exact semQuebraB_left P _ v (semQuebraB_right P u _ h)

theorem reSplitF_pecas (P : Char → Bool) :
    ∀ (fuel : Nat) (l acc : List Char), l.length < fuel →
      semQuebraB P (acc.reverse ++ l.take 1) = true →
      ∀ q ∈ reSplitF P fuel acc l, semQuebraB P q = true := by
  intro fuel
  induction fuel with
  | zero => intro l acc h; omega
  | succ fuel ih =>
    intro l acc h hinv q hq
    cases l with
    | nil =>
      simp [reSplitF] at hq
      subst hq
      simpa using hinv
    | cons c resto =>
      by_cases hsplit : (P c && headWS resto) = true
      · rw [show reSplitF P (fuel + 1) acc (c :: resto) =
            (acc.reverse ++ [c]) :: reSplitF P fuel [] (resto.dropWhile isWS) from by
          simp [reSplitF, hsplit]] at hq
        rcases List.mem_cons.mp hq with hq | hq
        · subst hq
          simpa using hinv
        · refine ih (resto.dropWhile isWS) [] ?_ ?_ q hq
          · have h1 := (List.dropWhile_sublist (l := resto) isWS).length_le
            have h2 : resto.length < fuel := by simpa using Nat.lt_of_succ_lt_succ h
            omega
          · refine semQuebraB_short P _ ?_
            simp [List.length_take]
      · rw [show reSplitF P (fuel + 1) acc (c :: resto) =
            reSplitF P fuel (c :: acc) resto from by simp [reSplitF, hsplit]] at hq
        refine ih resto (c :: acc) (by simpa using Nat.lt_of_succ_lt_succ h) ?_ q hq
        cases resto with
        | nil =>
          simpa using hinv
        | cons d t =>
          rw [show (c :: acc).reverse ++ (d :: t).take 1 =
            (acc.reverse ++ [c]) ++ [d] from by simp]
          refine semQuebraB_glue P _ _ (by simpa using hinv) (by rfl) ?_
          intro a b ha hb
          rw [List.getLast?_concat] at ha
          have ha2 : c = a := by simpa using ha
          have hb2 : d = b := by simpa using hb
          subst ha2
          subst hb2
          have hf : (P c && headWS (d :: t)) = false := bool_ne_true _ hsplit
          simpa [headWS] using hf

theorem reSplit_pecas (P : Char → Bool) (l : List Char) :
    ∀ q ∈ reSplitDepois P l, semQuebraB P q = true := by
  intro q hq
  refine reSplitF_pecas P (l.length + 1) l [] (by omega) ?_ q hq
  refine semQuebraB_short P _ ?_
  simp [List.length_take]

theorem reSplitF_self (P : Char → Bool) :
    ∀ (fuel : Nat) (l acc : List Char), l.length < fuel →
      semQuebraB P (acc.reverse ++ l) = true →
      reSplitF P fuel acc l = [acc.reverse ++ l] := by
  intro fuel
  induction fuel with
  | zero => intro l acc h; omega
  | succ fuel ih =>
    intro l acc h hsq
    cases l with
    | nil => simp [reSplitF]
    | cons c resto =>
      have hsplit : (P c && headWS resto) = false := by
        cases resto with
        | nil => simp [headWS]
        | cons d t =>
          have h2 := semQuebraB_right P acc.reverse (c :: d :: t) hsq
          rw [semQuebraB_cons_eq, Bool.and_eq_true_iff] at h2
          show (P c && headWS (d :: t)) = false
          have h4 : (P c && isWS d) = false := bool_not_true _ h2.1
          simpa [headWS] using h4
      rw [show reSplitF P (fuel + 1) acc (c :: resto) =
          reSplitF P fuel (c :: acc) resto from by simp [reSplitF, hsplit]]
      rw [ih resto (c :: acc) (by simpa using Nat.lt_of_succ_lt_succ h)
        (by simpa using hsq)]
      simp

theorem reSplit_self (P : Char → Bool) (l : List Char)
    (h : semQuebraB P l = true) : reSplitDepois P l = [l] := by
  have := reSplitF_self P (l.length + 1) l [] (by omega) (by simpa using h)
  simpa [reSplitDepois] using this

end TTSNarr

namespace TTSNarr

theorem pack_le (maxChars : Nat) (sub c : List Char)
    (hle : sub.length + c.length + 1 ≤ maxChars) :
    (if sub = [] then c else stripWS (sub ++ ' ' :: c)).length ≤ maxChars := by
  by_cases hs : sub = []
  · rw [if_pos hs]
    subst hs
    simp at hle
    omega
  · rw [if_neg hs]
    have h1 := stripWS_length_le (sub ++ ' ' :: c)
    simp [List.length_append] at h1
    omega

theorem strip_inv (maxChars : Nat) (l : List Char)
    (h : l.length ≤ maxChars ∨ semQuebraB ehVirgula l = true) :
    (stripWS l).length ≤ maxChars ∨ semQuebraB ehVirgula (stripWS l) = true := by
  rcases h with h | h
  · exact Or.inl (le_trans (stripWS_length_le l) h)
  · exact Or.inr (semQuebraB_strip ehVirgula l h)

theorem clausulasLoop_inv (maxChars : Nat) :
    ∀ (cs : List (List Char)) (sub : List Char),
      (∀ c ∈ cs, semQuebraB ehVirgula c = true) →
      (sub.length ≤ maxChars ∨ semQuebraB ehVirgula sub = true) →
      ((∀ e ∈ (clausulasLoop maxChars cs sub).1,
          e.length ≤ maxChars ∨ semQuebraB ehVirgula e = true) ∧
        ((clausulasLoop maxChars cs sub).2.length ≤ maxChars ∨
          semQuebraB ehVirgula (clausulasLoop maxChars cs sub).2 = true)) := by
  intro cs
  induction cs with
  | nil => intro sub _ hsub; exact ⟨by simp [clausulasLoop], hsub⟩
  | cons c resto ih =>
    intro sub hcs hsub
    have hc : semQuebraB ehVirgula c = true := hcs c (by simp)
    have hresto : ∀ x ∈ resto, semQuebraB ehVirgula x = true :=
      fun x hx => hcs x (by simp [hx])
    by_cases hle : sub.length + c.length + 1 ≤ maxChars
    · rw [show clausulasLoop maxChars (c :: resto) sub =
          clausulasLoop maxChars resto (if sub = [] then c else stripWS (sub ++ ' ' :: c))
        from by simp [clausulasLoop, hle]]
      exact ih _ hresto (Or.inl (pack_le maxChars sub c hle))
    · rw [show clausulasLoop maxChars (c :: resto) sub =
          ((if sub = [] then (clausulasLoop maxChars resto c).1
            else stripWS sub :: (clausulasLoop maxChars resto c).1),
            (clausulasLoop maxChars resto c).2) from by simp [clausulasLoop, hle]]
      obtain ⟨h1, h2⟩ := ih c hresto (Or.inr hc)
      refine ⟨?_, h2⟩
      intro e he
      by_cases hs : sub = []
      · rw [if_pos hs] at he
        exact h1 e he
      · rw [if_neg hs] at he
        rcases List.mem_cons.mp he with he | he
        · subst he
          exact strip_inv maxChars sub hsub
        · exact h1 e he

theorem partesLoop_inv (maxChars : Nat) :
    ∀ (ps : List (List Char)) (buffer : List Char),
      (buffer.length ≤ maxChars ∨ semQuebraB ehVirgula buffer = true) →
      ((∀ e ∈ (partesLoop maxChars ps buffer).1,
          e.length ≤ maxChars ∨ semQuebraB ehVirgula e = true) ∧
        ((partesLoop maxChars ps buffer).2.length ≤ maxChars ∨
          semQuebraB ehVirgula (partesLoop maxChars ps buffer).2 = true)) := by
  intro ps
  induction ps with
  | nil => intro buffer hb; exact ⟨by simp [partesLoop], hb⟩
  | cons p resto ih =>
    intro buffer hb
    by_cases hskip : stripWS p = []
    · rw [show partesLoop maxChars (p :: resto) buffer = partesLoop maxChars resto buffer
        from by simp [partesLoop, hskip]]
      exact ih buffer hb
    · by_cases hle : buffer.length + p.length + 1 ≤ maxChars
      · rw [show partesLoop maxChars (p :: resto) buffer =
            partesLoop maxChars resto (if buffer = [] then p else stripWS (buffer ++ ' ' :: p))
          from by simp [partesLoop, hskip, hle]]
        exact ih _ (Or.inl (pack_le maxChars buffer p hle))
      · by_cases hbig : maxChars < p.length
        · rw [show partesLoop maxChars (p :: resto) buffer =
              ((if buffer = [] then [] else [stripWS buffer]) ++
                (clausulasLoop maxChars (reSplitDepois ehVirgula p) []).1 ++
                (partesLoop maxChars resto
                  (clausulasLoop maxChars (reSplitDepois ehVirgula p) []).2).1,
                (partesLoop maxChars resto
                  (clausulasLoop maxChars (reSplitDepois ehVirgula p) []).2).2)
            from by simp [partesLoop, hskip, hle, hbig]]
          obtain ⟨hc1, hc2⟩ := clausulasLoop_inv maxChars (reSplitDepois ehVirgula p) []
            (reSplit_pecas ehVirgula p) (Or.inl (by simp))
          obtain ⟨hr1, hr2⟩ := ih _ hc2
          refine ⟨?_, hr2⟩
          intro e he
          rcases List.mem_append.mp he with he | he
          · rcases List.mem_append.mp he with he | he
            · by_cases hbuf : buffer = []
              · rw [if_pos hbuf] at he
                simp at he
              · rw [if_neg hbuf] at he
                have : e = stripWS buffer := by simpa using he
                subst this
                exact strip_inv maxChars buffer hb
            · exact hc1 e he
          · exact hr1 e he
        · rw [show partesLoop maxChars (p :: resto) buffer =
              ((if buffer = [] then [] else [stripWS buffer]) ++
                (partesLoop maxChars resto p).1, (partesLoop maxChars resto p).2)
            from by simp [partesLoop, hskip, hle, hbig]]
          obtain ⟨hr1, hr2⟩ := ih p (Or.inl (by omega))
          refine ⟨?_, hr2⟩
          intro e he
          rcases List.mem_append.mp he with he | he
          · by_cases hbuf : buffer = []
            · rw [if_pos hbuf] at he
              simp at he
            · rw [if_neg hbuf] at he
              have : e = stripWS buffer := by simpa using he
              subst this
              exact strip_inv maxChars buffer hb
          · exact hr1 e he

theorem dividir_inv (texto : List Char) (maxChars : Nat) :
    ∀ chunk ∈ dividirEmSentencas texto maxChars,
      chunk.length ≤ maxChars ∨ semQuebraB ehVirgula chunk = true := by
  intro chunk hc
  simp only [dividirEmSentencas] at hc
  have hc2 := (List.mem_filter.mp hc).1
  obtain ⟨h1, h2⟩ := partesLoop_inv maxChars (reSplitDepois ehFimDeSentenca texto) []
    (Or.inl (by simp))
  rcases List.mem_append.mp hc2 with hm | hm
  · exact h1 chunk hm
  · by_cases hr : (partesLoop maxChars (reSplitDepois ehFimDeSentenca texto) []).2 = []
    · rw [if_pos hr] at hm
      simp at hm
    · rw [if_neg hr] at hm
      have : chunk = stripWS (partesLoop maxChars (reSplitDepois ehFimDeSentenca texto) []).2 := by
        simpa using hm
      subst this
      exact strip_inv maxChars _ h2

/-- C2: every chunk emitted by `_dividir_em_sentencas` has length at most
`maxChars`, or else it is a single clause that admits no further split at a
comma boundary (re-splitting it at comma boundaries returns it whole); no
chunk is a truncation — oversized clauses are emitted as-is. -/
theorem claim_C2_limite_chunks (texto : List Char) (maxChars : Nat)
    (chunk : List Char) (hc : chunk ∈ dividirEmSentencas texto maxChars) :
    chunk.length ≤ maxChars ∨ reSplitDepois ehVirgula chunk = [chunk] := by
  rcases dividir_inv texto maxChars chunk hc with h | h
  · exact Or.inl h
  · exact Or.inr (reSplit_self ehVirgula chunk h)

/-- C2 witness: the single chunk of a short text, at the default bound. -/
theorem claim_C2_limite_chunks_witness :
    "Olá, tudo bem.".data ∈ dividirEmSentencas "Olá, tudo bem.".data 230 ∧
      ("Olá, tudo bem.".data.length ≤ 230 ∨
        reSplitDepois ehVirgula "Olá, tudo bem.".data = ["Olá, tudo bem.".data]) :=
  ⟨by decide, claim_C2_limite_chunks "Olá, tudo bem.".data 230 "Olá, tudo bem.".data
    (by decide)⟩

end TTSNarr

namespace TTSNarr

/-- C3 counterexample: for the input `"Isto é um teste. Funciona bem? Sim!"`
segmentation at the default bound (230) does not return 3 chunks: the three
sentences are greedily packed into a single chunk. -/
theorem claim_C3_contraexemplo :
    (dividirEmSentencas "Isto é um teste. Funciona bem? Sim!".data 230).length ≠ 3 ∧
      dividirEmSentencas "Isto é um teste. Funciona bem? Sim!".data 230 =
        ["Isto é um teste. Funciona bem? Sim!".data] := by
  exact ⟨by decide, by decide⟩

/-- C3 (amended): concatenating the chunks with single spaces reproduces the
input modulo whitespace normalization, for every input and bound; for the
input `"Isto é um teste. Funciona bem? Sim!"` at the default bound (230) the
result is a single chunk — the whole text, ending in `'!'` — because all
three sentences fit the bound together. -/
theorem claim_C3_reconstrucao :
    (∀ (texto : List Char) (maxChars : Nat),
      normalizaWS (joinSpace (dividirEmSentencas texto maxChars)) =
        normalizaWS texto) ∧
      (dividirEmSentencas "Isto é um teste. Funciona bem? Sim!".data 230 =
        ["Isto é um teste. Funciona bem? Sim!".data] ∧
        ("Isto é um teste. Funciona bem? Sim!".data).getLast? = some '!') := by
  refine ⟨?_, by decide, by decide⟩
  intro texto maxChars
  unfold normalizaWS
  rw [palavras_joinSpace, dividir_palavras]

end TTSNarr

namespace TTSNarr

/-- C8: the inserted pause duration is determined solely by the chunk's
terminal (last non-whitespace) character via the fixed `_PAUSAS_MS` table;
sentence-final punctuation (`.`, `!`, `?`) yields strictly longer pauses than
`;`, `:` and `,`; and a terminal character outside the table yields the fixed
default (250 ms). -/
theorem claim_C8_pausa_tabela (s : List Char) (c : Char)
    (h : (rstripWS s).getLast? = some c) :
    pausaPorPontuacao s = pausasMS c ∧
      (∀ a b : Char, ehFimDeSentenca a = true → (b = ';' ∨ b = ':' ∨ b = ',') →
        pausasMS b < pausasMS a) ∧
      (ehFimDeSentenca c = false → c ≠ ';' → c ≠ ':' → c ≠ ',' →
        pausaPorPontuacao s = 250) := by
  have h1 : pausaPorPontuacao s = pausasMS c := by
    unfold pausaPorPontuacao
    rw [h]
  refine ⟨h1, ?_, ?_⟩
  · intro a b ha hb
    have ha2 : a = '.' ∨ a = '!' ∨ a = '?' := by
      simpa [ehFimDeSentenca, or_assoc] using ha
    rcases ha2 with rfl | rfl | rfl <;> rcases hb with rfl | rfl | rfl <;> decide
  · intro hf h2 h3 h4
    have hf2 : ¬(c = '.') ∧ ¬(c = '!') ∧ ¬(c = '?') := by
      simpa [ehFimDeSentenca, and_assoc] using hf
    rw [h1]
    unfold pausasMS
    rw [if_neg hf2.1, if_neg hf2.2.1, if_neg hf2.2.2, if_neg h2, if_neg h3, if_neg h4]

/-- C8 witness: a chunk ending in `'!'` uses the table entry, one ending in a
letter uses the default. -/
theorem claim_C8_pausa_tabela_witness :
    ((rstripWS "olá! ".data).getLast? = some '!' ∧
      pausaPorPontuacao "olá! ".data = pausasMS '!') ∧
      ((rstripWS "abc".data).getLast? = some 'c' ∧
        pausaPorPontuacao "abc".data = 250) := by
  constructor
  · exact ⟨by decide, (claim_C8_pausa_tabela "olá! ".data '!' (by decide)).1⟩
  · exact ⟨by decide, (claim_C8_pausa_tabela "abc".data 'c' (by decide)).2.2
      (by decide) (by decide) (by decide) (by decide)⟩

/-- C10: `_strip_silence` never lengthens a segment; when the computed trim
range is degenerate (trim end not after trim start) it returns the input
unchanged; and trimming a non-empty segment never yields an empty segment. -/
theorem claim_C10_strip_silence {α : Type} (dl : List α → Nat)
    (headMs tailMs : Nat) (faixa : List α) :
    (stripSilence dl headMs tailMs faixa).length ≤ faixa.length ∧
      (((if 0 < dl faixa.reverse - tailMs then
            ((faixa.length : Int) - ((dl faixa.reverse - tailMs : Nat) : Int))
          else ((faixa.length : Int))) ≤ ((dl faixa - headMs : Nat) : Int)) →
        stripSilence dl headMs tailMs faixa = faixa) ∧
      (faixa ≠ [] → stripSilence dl headMs tailMs faixa ≠ []) := by
  have hslice : ∀ (a k : Nat), ((faixa.drop a).take k).length ≤ faixa.length := by
    intro a k
    simp only [List.length_take, List.length_drop]
    omega
  refine ⟨?_, ?_, ?_⟩
  · unfold stripSilence
    dsimp only
    split <;> split <;> first | exact hslice _ _ | exact le_refl _
  · intro hdeg
    unfold stripSilence
    dsimp only
    rw [if_neg (not_lt.mpr hdeg)]
  · intro hne
    have hpos : 0 < faixa.length := List.length_pos.mpr hne
    unfold stripSilence
    dsimp only
    by_cases ht : 0 < dl faixa.reverse - tailMs
    · rw [if_pos ht]
      by_cases hlt : ((dl faixa - headMs : Nat) : Int) <
          (faixa.length : Int) - ((dl faixa.reverse - tailMs : Nat) : Int)
      · rw [if_pos hlt]
        intro hcontra
        have h0 : ((faixa.drop (dl faixa - headMs)).take
            (((faixa.length : Int) - ((dl faixa.reverse - tailMs : Nat) : Int) -
              ((dl faixa - headMs : Nat) : Int)).toNat)).length = 0 := by
          rw [hcontra]
          rfl
        simp only [List.length_take, List.length_drop] at h0
        omega
      · rw [if_neg hlt]
        exact hne
    · rw [if_neg ht]
      by_cases hlt : ((dl faixa - headMs : Nat) : Int) < (faixa.length : Int)
      · rw [if_pos hlt]
        intro hcontra
        have h0 : ((faixa.drop (dl faixa - headMs)).take
            (((faixa.length : Int) - ((dl faixa - headMs : Nat) : Int)).toNat)).length = 0 := by
          rw [hcontra]
          rfl
        simp only [List.length_take, List.length_drop] at h0
        omega
      · rw [if_neg hlt]
        exact hne

/-- C10 witness: a 1-sample segment with a zero detector stays non-empty, and
an over-eager detector makes the range degenerate, returning the input. -/
theorem claim_C10_strip_silence_witness :
    (([0] : List Nat) ≠ [] ∧ stripSilence (fun _ => 0) 40 80 ([0] : List Nat) ≠ []) ∧
      (((if 0 < (fun (_ : List Nat) => 1000) ([0] : List Nat).reverse - 80 then
            ((([0] : List Nat).length : Int) -
              (((fun (_ : List Nat) => 1000) ([0] : List Nat).reverse - 80 : Nat) : Int))
          else ((([0] : List Nat).length : Int))) ≤
          (((fun (_ : List Nat) => 1000) ([0] : List Nat) - 40 : Nat) : Int)) ∧
        stripSilence (fun _ => 1000) 40 80 ([0] : List Nat) = [0]) := by
  constructor
  · exact ⟨by decide, (claim_C10_strip_silence (fun _ => 0) 40 80 [0]).2.2 (by decide)⟩
  · exact ⟨by decide, (claim_C10_strip_silence (fun _ => 1000) 40 80 [0]).2.1 (by decide)⟩

end TTSNarr

namespace TTSNarr

theorem montarGo_eq_seq :
    ∀ (segs : List (List Char × ResSintese)) (idx total : Nat),
      idx + segs.length = total → montarGo total idx segs = montarSeq segs := by
  intro segs
  induction segs with
  | nil => intro idx total h; rfl
  | cons sg resto ih =>
    intro idx total h
    obtain ⟨sent, seg⟩ := sg
    cases resto with
    | nil =>
      show montarGo total idx [(sent, seg)] = [Peca.trecho sent seg]
      unfold montarGo
      rw [if_neg (by simp at h; omega : ¬(idx < total - 1))]
      rfl
    | cons sg2 resto2 =>
      show montarGo total idx ((sent, seg) :: sg2 :: resto2) = _
      unfold montarGo
      rw [if_pos (by simp at h; omega : idx < total - 1)]
      rw [ih (idx + 1) total (by simp at h ⊢; omega)]
      obtain ⟨s2, g2⟩ := sg2
      rfl

theorem contaPausas_seq :
    ∀ (segs : List (List Char × ResSintese)),
      contaPausas (montarSeq segs) = segs.length - 1 := by
  intro segs
  induction segs with
  | nil => rfl
  | cons sg resto ih =>
    obtain ⟨sent, seg⟩ := sg
    cases resto with
    | nil => rfl
    | cons sg2 resto2 =>
      show contaPausas (Peca.trecho sent seg :: Peca.pausa (pausaPorPontuacao sent) ::
        montarSeq (sg2 :: resto2)) = _
      unfold contaPausas at ih ⊢
      simp only [List.filter_cons, ehPausa, List.length_cons] at ih ⊢
      simp at ih ⊢
      omega

theorem contaTrechos_seq :
    ∀ (segs : List (List Char × ResSintese)),
      contaTrechos (montarSeq segs) = segs.length := by
  intro segs
  induction segs with
  | nil => rfl
  | cons sg resto ih =>
    obtain ⟨sent, seg⟩ := sg
    cases resto with
    | nil => rfl
    | cons sg2 resto2 =>
      show contaTrechos (Peca.trecho sent seg :: Peca.pausa (pausaPorPontuacao sent) ::
        montarSeq (sg2 :: resto2)) = _
      unfold contaTrechos at ih ⊢
      simp only [List.filter_cons, ehPausa, List.length_cons] at ih ⊢
      simp at ih ⊢
      omega

theorem getLast?_cons_ne (a : Peca) (l : List Peca) (h : l ≠ []) :
    (a :: l).getLast? = l.getLast? := by
  cases l with
  | nil => exact absurd rfl h
  | cons b t => rw [List.getLast?_cons_cons]

theorem montarSeq_ne_nil (sg : List Char × ResSintese)
    (segs : List (List Char × ResSintese)) : montarSeq (sg :: segs) ≠ [] := by
  obtain ⟨s, g⟩ := sg
  cases segs <;> simp [montarSeq]

theorem montarSeq_getLast :
    ∀ (segs : List (List Char × ResSintese)) (sent : List Char) (seg : ResSintese),
      ∃ s2 g2, (montarSeq ((sent, seg) :: segs)).getLast? =
        some (Peca.trecho s2 g2) := by
  intro segs
  induction segs with
  | nil => intro sent seg; exact ⟨sent, seg, rfl⟩
  | cons sg2 resto ih =>
    intro sent seg
    obtain ⟨s2, g2⟩ := sg2
    obtain ⟨s3, g3, h3⟩ := ih s2 g2
    refine ⟨s3, g3, ?_⟩
    show (Peca.trecho sent seg :: Peca.pausa (pausaPorPontuacao sent) ::
      montarSeq ((s2, g2) :: resto)).getLast? = _
    rw [List.getLast?_cons_cons,
      getLast?_cons_ne _ _ (montarSeq_ne_nil (s2, g2) resto)]
    exact h3

theorem sinteSeg_len (synth : List Char → Option Nat) :
    ∀ (sents : List (List Char)),
      (sintetizarSegmentos synth sents).2.length = sents.length ∧
        (sintetizarSegmentos synth sents).1 = sents.length := by
  intro sents
  induction sents with
  | nil => exact ⟨rfl, rfl⟩
  | cons x resto ih => simp [sintetizarSegmentos, ih.1, ih.2]

theorem sinteSeg_get (synth : List Char → Option Nat) :
    ∀ (sents : List (List Char)) (i : Nat) (s : List Char),
      sents[i]? = some s →
      (sintetizarSegmentos synth sents).2[i]? =
        some (s, resultadoSintese synth s) := by
  intro sents
  induction sents with
  | nil => intro i s h; simp at h
  | cons x resto ih =>
    intro i s h
    have hx : (sintetizarSegmentos synth (x :: resto)).2 =
        (x, resultadoSintese synth x) :: (sintetizarSegmentos synth resto).2 := by
      simp [sintetizarSegmentos]
    cases i with
    | zero =>
      simp at h
      subst h
      rw [hx]
      simp
    | succ n =>
      rw [hx, List.getElem?_cons_succ]
      exact ih n s (by simpa using h)

theorem dividir_nil (maxChars : Nat) : dividirEmSentencas [] maxChars = [] := rfl

/-- C1: when segmentation of the prepared scene text yields N ≥ 1 non-empty
chunks, `sintetizar_cena` makes exactly N synthesis attempts (one per chunk)
and inserts exactly N−1 inter-sentence pauses during concatenation, with no
pause after the last chunk. -/
theorem claim_C1_tentativas_e_pausas (disponivel : Bool)
    (synth : List Char → Option Nat) (texto outputPath : String)
    (hne : dividirEmSentencas (prepararTexto disponivel texto.data) 230 ≠ []) :
    (sintetizarCena disponivel synth texto outputPath).chamadas =
      (dividirEmSentencas (prepararTexto disponivel texto.data) 230).length ∧
      ∃ pecas, (sintetizarCena disponivel synth texto outputPath).saida =
          SaidaCena.montada pecas ∧
        contaPausas pecas =
          (dividirEmSentencas (prepararTexto disponivel texto.data) 230).length - 1 ∧
        ∃ sent seg, pecas.getLast? = some (Peca.trecho sent seg) := by
  have hprep : ¬(prepararTexto disponivel texto.data = []) := by
    intro h
    rw [h, dividir_nil] at hne
    exact hne rfl
  unfold sintetizarCena
  rw [if_neg hprep]
  dsimp only
  refine ⟨(sinteSeg_len synth _).2, montarCena
    (sintetizarSegmentos synth
      (dividirEmSentencas (prepararTexto disponivel texto.data) 230)).2, rfl, ?_, ?_⟩
  · unfold montarCena
    rw [montarGo_eq_seq _ 0 _ (by omega), contaPausas_seq, (sinteSeg_len synth _).1]
  · unfold montarCena
    rw [montarGo_eq_seq _ 0 _ (by omega)]
    cases hsg : (sintetizarSegmentos synth
        (dividirEmSentencas (prepararTexto disponivel texto.data) 230)).2 with
    | nil =>
      have := (sinteSeg_len synth
        (dividirEmSentencas (prepararTexto disponivel texto.data) 230)).1
      rw [hsg] at this
      exact absurd (List.length_eq_zero.mp this.symm) hne
    | cons sg resto =>
      obtain ⟨sent, seg⟩ := sg
      exact montarSeq_getLast resto sent seg

/-- C1 witness: one chunk, one attempt, no pause. -/
theorem claim_C1_tentativas_e_pausas_witness :
    dividirEmSentencas (prepararTexto true "Olá. Tudo bem?".data) 230 ≠ [] ∧
      (sintetizarCena true (fun _ => some 700) "Olá. Tudo bem?" "cena.wav").chamadas =
        (dividirEmSentencas (prepararTexto true "Olá. Tudo bem?".data) 230).length :=
  ⟨by decide, (claim_C1_tentativas_e_pausas true (fun _ => some 700) "Olá. Tudo bem?"
    "cena.wav" (by decide)).1⟩

/-- C4: an input text that normalizes to the empty string makes
`sintetizar_cena` export exactly one fixed 1 s silence at the given path,
return that path, and make no synthesis attempt; this is a defined, non-error
outcome (the model is a total function). -/
theorem claim_C4_texto_vazio (disponivel : Bool) (synth : List Char → Option Nat)
    (texto outputPath : String)
    (h : prepararTexto disponivel texto.data = []) :
    sintetizarCena disponivel synth texto outputPath =
      { saida := SaidaCena.silencioFixo 1000, caminho := outputPath,
        chamadas := 0 } := by
  unfold sintetizarCena
  rw [if_pos h]

/-- C4 witness: the empty string normalizes to the empty string. -/
theorem claim_C4_texto_vazio_witness :
    prepararTexto true "".data = [] ∧
      sintetizarCena true (fun _ => some 1) "" "out.wav" =
        { saida := SaidaCena.silencioFixo 1000, caminho := "out.wav",
          chamadas := 0 } :=
  ⟨by decide, claim_C4_texto_vazio true (fun _ => some 1) "" "out.wav" (by decide)⟩

/-- C5: per-chunk failures are isolated — the `segmentos` list has exactly one
entry per chunk; a chunk whose synthesis raises is recorded as the 500 ms
fallback silence while every other chunk keeps its genuine synthesized
output; and the assembled scene still contains exactly N chunk segments. -/
theorem claim_C5_isolamento (synth : List Char → Option Nat)
    (sents : List (List Char)) :
    (sintetizarSegmentos synth sents).2.length = sents.length ∧
      (∀ (i : Nat) (s : List Char), sents[i]? = some s →
        (sintetizarSegmentos synth sents).2[i]? =
          some (s, resultadoSintese synth s)) ∧
      contaTrechos (montarCena (sintetizarSegmentos synth sents).2) =
        sents.length := by
  refine ⟨(sinteSeg_len synth sents).1, sinteSeg_get synth sents, ?_⟩
  unfold montarCena
  rw [montarGo_eq_seq _ 0 _ (by omega), contaTrechos_seq, (sinteSeg_len synth sents).1]

/-- C5 witness: three chunks with the engine mock raising on chunk 2 — chunk 2
becomes the fallback silence, chunks 1 and 3 keep genuine output. -/
theorem claim_C5_isolamento_witness :
    (["Um.".data, "Dois.".data, "Três.".data][1]? = some "Dois.".data) ∧
      (["Um.".data, "Dois.".data, "Três.".data][0]? = some "Um.".data) ∧
      (sintetizarSegmentos (fun s => if s = "Dois.".data then none else some 900)
        ["Um.".data, "Dois.".data, "Três.".data]).2[1]? =
        some ("Dois.".data, resultadoSintese
          (fun s => if s = "Dois.".data then none else some 900) "Dois.".data) ∧
      (sintetizarSegmentos (fun s => if s = "Dois.".data then none else some 900)
        ["Um.".data, "Dois.".data, "Três.".data]).2[0]? =
        some ("Um.".data, resultadoSintese
          (fun s => if s = "Dois.".data then none else some 900) "Um.".data) ∧
      resultadoSintese (fun s => if s = "Dois.".data then none else some 900)
        "Dois.".data = ResSintese.reserva500 ∧
      resultadoSintese (fun s => if s = "Dois.".data then none else some 900)
        "Um.".data = ResSintese.genuina 900 := by
  refine ⟨by decide, by decide, ?_, ?_, by decide, by decide⟩
  · exact (claim_C5_isolamento _ _).2.1 1 "Dois.".data (by decide)
  · exact (claim_C5_isolamento _ _).2.1 0 "Um.".data (by decide)

end TTSNarr

namespace TTSNarr

theorem collapseGo_ws_space :
    ∀ (l : List Char) (b : Bool) (c : Char),
      c ∈ collapseGo b l → isWS c = true → c = ' ' := by
  intro l
  induction l with
  | nil => intro b c hc _; simp [collapseGo] at hc
  | cons a l ih =>
    intro b c hc hws
    by_cases ha : isWS a = true
    · cases b with
      | true =>
        rw [show collapseGo true (a :: l) = collapseGo true l from by
          simp [collapseGo, ha]] at hc
        exact ih true c hc hws
      | false =>
        rw [show collapseGo false (a :: l) = ' ' :: collapseGo true l from by
          simp [collapseGo, ha]] at hc
        rcases List.mem_cons.mp hc with h | h
        · exact h
        · exact ih true c h hws
    · rw [show collapseGo b (a :: l) = a :: collapseGo false l from by
        simp [collapseGo, ha]] at hc
      rcases List.mem_cons.mp hc with h | h
      · subst h
        exact absurd hws ha
      · exact ih false c h hws

theorem collapseGo_props :
    ∀ (l : List Char) (b : Bool),
      semQuebraB isWS (collapseGo b l) = true ∧
        (b = true → headWS (collapseGo b l) = false) := by
  intro l
  induction l with
  | nil => intro b; exact ⟨rfl, fun _ => rfl⟩
  | cons a l ih =>
    intro b
    by_cases ha : isWS a = true
    · cases b with
      | true =>
        rw [show collapseGo true (a :: l) = collapseGo true l from by
          simp [collapseGo, ha]]
        exact ⟨(ih true).1, fun _ => (ih true).2 rfl⟩
      | false =>
        rw [show collapseGo false (a :: l) = ' ' :: collapseGo true l from by
          simp [collapseGo, ha]]
        refine ⟨?_, fun h => absurd h (by simp)⟩
        refine semQuebraB_cons_of isWS ' ' _ ?_ (ih true).1
        intro d hd
        have hh := (ih true).2 rfl
        cases hcl : collapseGo true l with
        | nil =>
          rw [hcl] at hd
          simp at hd
        | cons e t =>
          rw [hcl] at hd hh
          have hde : e = d := by simpa using hd
          have hwe : isWS e = false := by simpa [headWS] using hh
          rw [← hde]
          simp [hwe]
    · have haf := bool_ne_true _ ha
      rw [show collapseGo b (a :: l) = a :: collapseGo false l from by
        simp [collapseGo, ha]]
      constructor
      · refine semQuebraB_cons_of isWS a _ ?_ (ih false).1
        intro d hd
        simp [haf]
      · intro _
        show headWS (a :: collapseGo false l) = false
        simpa [headWS] using haf

theorem collapseGo_fix :
    ∀ (l : List Char), (∀ c ∈ l, isWS c = true → c = ' ') →
      semQuebraB isWS l = true →
      (collapseGo false l = l ∧ (headWS l = false → collapseGo true l = l)) := by
  intro l
  induction l with
  | nil => intro _ _; exact ⟨rfl, fun _ => rfl⟩
  | cons a l ih =>
    intro hsp hsq
    have hsp2 : ∀ c ∈ l, isWS c = true → c = ' ' := fun c hc => hsp c (by simp [hc])
    have hsq2 : semQuebraB isWS l = true := semQuebraB_peel isWS a l hsq
    obtain ⟨ih1, ih2⟩ := ih hsp2 hsq2
    by_cases ha : isWS a = true
    · have ha2 : a = ' ' := hsp a (by simp) ha
      constructor
      · rw [show collapseGo false (a :: l) = ' ' :: collapseGo true l from by
          simp [collapseGo, ha]]
        rw [show (' ' : Char) :: collapseGo true l = a :: collapseGo true l from by
          rw [ha2]]
        congr 1
        apply ih2
        cases l with
        | nil => rfl
        | cons d t =>
          rw [semQuebraB_cons_eq] at hsq
          have h1 := bool_not_true _ (Bool.and_eq_true_iff.mp hsq).1
          have h2 : isWS d = false := by simpa [ha] using h1
          show headWS (d :: t) = false
          simpa [headWS] using h2
      · intro hh
        have : isWS a = false := by simpa [headWS] using hh
        rw [this] at ha
        simp at ha
    · have haf := bool_ne_true _ ha
      constructor
      · rw [show collapseGo false (a :: l) = a :: collapseGo false l from by
          simp [collapseGo, ha]]
        rw [ih1]
      · intro _
        rw [show collapseGo true (a :: l) = a :: collapseGo false l from by
          simp [collapseGo, ha]]
        rw [ih1]

theorem strip_collapse_idem (z : List Char) :
    stripWS (collapseWS (stripWS (collapseWS z))) = stripWS (collapseWS z) := by
  have hA : ∀ c ∈ collapseWS z, isWS c = true → c = ' ' :=
    fun c hc => collapseGo_ws_space z false c hc
  have hB : semQuebraB isWS (collapseWS z) = true := (collapseGo_props z false).1
  have hA2 : ∀ c ∈ stripWS (collapseWS z), isWS c = true → c = ' ' :=
    fun c hc => hA c (stripWS_subset _ hc)
  have hB2 : semQuebraB isWS (stripWS (collapseWS z)) = true :=
    semQuebraB_strip isWS _ hB
  rw [show collapseWS (stripWS (collapseWS z)) = stripWS (collapseWS z) from
    (collapseGo_fix _ hA2 hB2).1]
  exact stripWS_idem _

/-- C6 counterexample: `_preparar_texto` is not idempotent.  On
`"Dr.. Silva"` the first pass leaves `"Dr. Silva"` (the abbreviation rule
sees `"Dr.."` and does not fire; the later `\.{2,}` normalization then
exposes `"Dr. "`), and a second pass expands it to `"Doutor Silva"`; the same
happens whether or not `num2words` is available. -/
theorem claim_C6_contraexemplo :
    prepararTexto true (prepararTexto true "Dr.. Silva".data) ≠
      prepararTexto true "Dr.. Silva".data ∧
      prepararTexto true "Dr.. Silva".data = "Dr. Silva".data ∧
      prepararTexto true (prepararTexto true "Dr.. Silva".data) =
        "Doutor Silva".data ∧
      prepararTexto false (prepararTexto false "Dr.. Silva".data) ≠
        prepararTexto false "Dr.. Silva".data :=
  ⟨by decide, by decide, by decide, by decide⟩

/-- C6 (amended): `_preparar_texto` is idempotent on every input whose
normalized form is itself fully normalized, i.e. fixed by each of the
cleaning, abbreviation-expansion, number-spelling, dot- and double-hyphen
normalization stages (the counterexample "Dr.. Silva" violates this: its
normal form "Dr. Silva" is changed by abbreviation expansion).  The final
whitespace collapse and strip are idempotent unconditionally. -/
theorem claim_C6_idem_estavel (disponivel : Bool) (texto : List Char)
    (h1 : limparTexto (prepararTexto disponivel texto) =
      prepararTexto disponivel texto)
    (h2 : expandirAbreviacoes (prepararTexto disponivel texto) =
      prepararTexto disponivel texto)
    (h3 : numerosPorExtenso disponivel (prepararTexto disponivel texto) =
      prepararTexto disponivel texto)
    (h4 : squeezeDots (prepararTexto disponivel texto) =
      prepararTexto disponivel texto)
    (h5 : subTravessoes (prepararTexto disponivel texto) =
      prepararTexto disponivel texto) :
    prepararTexto disponivel (prepararTexto disponivel texto) =
      prepararTexto disponivel texto := by
  conv_lhs => rw [show prepararTexto disponivel (prepararTexto disponivel texto) =
    stripWS (collapseWS (subTravessoes (squeezeDots (numerosPorExtenso disponivel
      (expandirAbreviacoes (limparTexto (prepararTexto disponivel texto)))))))
    from rfl]
  rw [h1, h2, h3, h4, h5]
  exact strip_collapse_idem (subTravessoes (squeezeDots (numerosPorExtenso disponivel
    (expandirAbreviacoes (limparTexto texto)))))

/-- C6 witness: "Olá mundo." is fixed by every stage, hence idempotent. -/
theorem claim_C6_idem_estavel_witness :
    (limparTexto (prepararTexto true "Olá mundo.".data) =
      prepararTexto true "Olá mundo.".data) ∧
      (expandirAbreviacoes (prepararTexto true "Olá mundo.".data) =
        prepararTexto true "Olá mundo.".data) ∧
      (numerosPorExtenso true (prepararTexto true "Olá mundo.".data) =
        prepararTexto true "Olá mundo.".data) ∧
      (squeezeDots (prepararTexto true "Olá mundo.".data) =
        prepararTexto true "Olá mundo.".data) ∧
      (subTravessoes (prepararTexto true "Olá mundo.".data) =
        prepararTexto true "Olá mundo.".data) ∧
      prepararTexto true (prepararTexto true "Olá mundo.".data) =
        prepararTexto true "Olá mundo.".data :=
  ⟨by decide, by decide, by decide, by decide, by decide,
    claim_C6_idem_estavel true "Olá mundo.".data (by decide) (by decide)
      (by decide) (by decide) (by decide)⟩

end TTSNarr

namespace TTSNarr

theorem except_bind_ok {ε α β : Type} (x : Except ε α) (f : α → Except ε β)
    (v : β) (h : (x >>= f) = Except.ok v) :
    ∃ a, x = Except.ok a ∧ f a = Except.ok v := by
  cases x with
  | error e => simp [Bind.bind, Except.bind] at h
  | ok a =>
    refine ⟨a, rfl, ?_⟩
    simpa [Bind.bind, Except.bind] using h

/-- C7: voice-reference conditioning never fails fatally — whenever any
internal step of `_preparar_referencia_voz` raises, the exception is absorbed
and the original, unmodified input path is returned; on success the returned
value is the freshly created temp-file path, to which the cleaned reference
was written before returning. -/
theorem claim_C7_referencia {A S : Type} (o : VozOracle A S) (wavPath : String) :
    (∀ e, vozCorpo o wavPath = Except.error e →
      prepararReferenciaVoz o wavPath = wavPath) ∧
      (∀ tmp, vozCorpo o wavPath = Except.ok tmp →
        prepararReferenciaVoz o wavPath = tmp ∧
          o.criarTemp = Except.ok tmp ∧ ∃ s, o.escrever tmp s = Except.ok ()) := by
  constructor
  · intro e he
    unfold prepararReferenciaVoz
    rw [he]
  · intro tmp htmp
    refine ⟨by unfold prepararReferenciaVoz; rw [htmp], ?_⟩
    unfold vozCorpo at htmp
    obtain ⟨som, h1, htmp⟩ := except_bind_ok _ _ _ htmp
    obtain ⟨partesFala, h2, htmp⟩ := except_bind_ok _ _ _ htmp
    obtain ⟨samples, h3, htmp⟩ := except_bind_ok _ _ _ htmp
    obtain ⟨samples2, h4, htmp⟩ := except_bind_ok _ _ _ htmp
    obtain ⟨somOrig, h5, htmp⟩ := except_bind_ok _ _ _ htmp
    obtain ⟨falaOrig, h6, htmp⟩ := except_bind_ok _ _ _ htmp
    obtain ⟨somOrigMono, h7, htmp⟩ := except_bind_ok _ _ _ htmp
    obtain ⟨noiseRef, h8, htmp⟩ := except_bind_ok _ _ _ htmp
    obtain ⟨limpo, h9, htmp⟩ := except_bind_ok _ _ _ htmp
    obtain ⟨limpo2, h10, htmp⟩ := except_bind_ok _ _ _ htmp
    obtain ⟨tmp2, h11, htmp⟩ := except_bind_ok _ _ _ htmp
    obtain ⟨u1, h12, htmp⟩ := except_bind_ok _ _ _ htmp
    obtain ⟨u2, h13, htmp⟩ := except_bind_ok _ _ _ htmp
    have hteq : tmp2 = tmp := by
      simpa [pure, Except.pure] using htmp
    subst hteq
    exact ⟨h11, limpo2, h12⟩

/-- C7 witness: the all-raising oracle falls back to the original path; the
all-succeeding oracle returns the written temp path. -/
theorem claim_C7_referencia_witness :
    (vozCorpo vozOracleFalho "ref.wav" = Except.error () ∧
      prepararReferenciaVoz vozOracleFalho "ref.wav" = "ref.wav") ∧
      (vozCorpo vozOracleBom "ref.wav" = Except.ok "tmp_ref.wav" ∧
        prepararReferenciaVoz vozOracleBom "ref.wav" = "tmp_ref.wav") := by
  refine ⟨⟨rfl, ?_⟩, ⟨rfl, ?_⟩⟩
  · exact (claim_C7_referencia vozOracleFalho "ref.wav").1 () rfl
  · exact ((claim_C7_referencia vozOracleBom "ref.wav").2 "tmp_ref.wav" rfl).1

theorem rmMdGo_marcador_false :
    ∀ (marcador : Char → Bool) (l : List Char) (prev : Option Char) (e : Char),
      e ∈ rmMdGo marcador prev l → marcador e = false := by
  intro marcador l
  induction l with
  | nil => intro prev e h; simp [rmMdGo] at h
  | cons c resto ih =>
    intro prev e h
    by_cases hc : marcador c = true
    · rw [show rmMdGo marcador prev (c :: resto) = rmMdGo marcador (some c) resto
        from by simp [rmMdGo, hc]] at h
      exact ih _ e h
    · by_cases hu : c = '_'
      · subst hu
        by_cases hadj : (prev = some '_' || resto.head? = some '_') = true
        · rw [show rmMdGo marcador prev ('_' :: resto) =
            rmMdGo marcador (some '_') resto from by simp [rmMdGo, hc, hadj]] at h
          exact ih _ e h
        · rw [show rmMdGo marcador prev ('_' :: resto) =
            '_' :: rmMdGo marcador (some '_') resto from by
              simp [rmMdGo, hc, hadj]] at h
          rcases List.mem_cons.mp h with h | h
          · subst h
            exact bool_ne_true _ hc
          · exact ih _ e h
      · rw [show rmMdGo marcador prev (c :: resto) =
          c :: rmMdGo marcador (some c) resto from by simp [rmMdGo, hc, hu]] at h
        rcases List.mem_cons.mp h with h | h
        · subst h
          exact bool_ne_true _ hc
        · exact ih _ e h

theorem collapseGo_subset :
    ∀ (l : List Char) (b : Bool) (c : Char),
      c ∈ collapseGo b l → c ∈ l ∨ c = ' ' := by
  intro l
  induction l with
  | nil => intro b c h; simp [collapseGo] at h
  | cons a l ih =>
    intro b c h
    by_cases ha : isWS a = true
    · cases b with
      | true =>
        rw [show collapseGo true (a :: l) = collapseGo true l from by
          simp [collapseGo, ha]] at h
        rcases ih true c h with h2 | h2
        · exact Or.inl (by simp [h2])
        · exact Or.inr h2
      | false =>
        rw [show collapseGo false (a :: l) = ' ' :: collapseGo true l from by
          simp [collapseGo, ha]] at h
        rcases List.mem_cons.mp h with h2 | h2
        · exact Or.inr h2
        · rcases ih true c h2 with h3 | h3
          · exact Or.inl (by simp [h3])
          · exact Or.inr h3
    · rw [show collapseGo b (a :: l) = a :: collapseGo false l from by
        simp [collapseGo, ha]] at h
      rcases List.mem_cons.mp h with h2 | h2
      · exact Or.inl (by simp [h2])
      · rcases ih false c h2 with h3 | h3
        · exact Or.inl (by simp [h3])
        · exact Or.inr h3

theorem limparTexto_sem_colchete (texto : List Char) (x : Char)
    (hx : ehMarcadorMd x = true) : x ∉ limparTexto texto := by
  intro h
  have h2 := stripWS_subset _ h
  rcases collapseGo_subset _ false x h2 with h3 | h3
  · have := rmMdGo_marcador_false ehMarcadorMd _ none x h3
    rw [hx] at this
    simp at this
  · subst h3
    simp [ehMarcadorMd] at hx

/-- C9 counterexample: `tts_narrator`'s normalizer does not remove bracketed
or parenthetical stage directions together with their content — it removes
only the bracket characters (the annotation text `pause` survives), and a
parenthetical `(music)` passes through untouched. -/
theorem claim_C9_contraexemplo :
    limparTexto "Olá [pause] fim".data = "Olá pause fim".data ∧
      limparTexto "(music) fica".data = "(music) fica".data :=
  ⟨by decide, by decide⟩

/-- C9 (amended): in `tts_narrator` normalization removes only the bracket
characters themselves — the output never contains `[` or `]`, but the
enclosed annotation text survives and parentheses are untouched; only the
`chatterbox_narrator` variant removes bracketed annotations together with
their content, and short parenthetical annotations only when they begin with
a capital letter (lowercase ones are kept). -/
theorem claim_C9_marcadores (texto : List Char) :
    ('[' ∉ limparTexto texto ∧ ']' ∉ limparTexto texto) ∧
      limparTexto "Olá [pause] fim".data = "Olá pause fim".data ∧
      limparTextoCb "Olá [pause] (Música) fim".data = "Olá fim".data ∧
      limparTextoCb "(music) fica".data = "(music) fica".data := by
  refine ⟨⟨?_, ?_⟩, by decide, by decide, by decide⟩
  · exact limparTexto_sem_colchete texto '[' (by decide)
  · exact limparTexto_sem_colchete texto ']' (by decide)

end TTSNarr
